import Mathlib

/-!
# leekpp: block storage and Bloom filter operations

A shallow embedding of `leekpp/storage.hpp`, `leekpp/bloom_filter.hpp`, `leekpp/assert.hpp`
(default configuration) and the inserters of `leekpp/storage_io.hpp` and
`leekpp/bloom_filter_io.hpp`.

* The library is instantiated at its defaults: `TBlock = std::size_t`, a 64-bit
  `std::size_t` (LP64), `TBackingStorage = std::vector<TBlock>`.
* `std::size_t` values are natural numbers; sums and differences that the
  source computes in `std::size_t` are reduced modulo `2 ^ 64`.
* A block is a natural number below `2 ^ 64`; `|`, `&` and `<<` on blocks are
  `|||`, `&&&` and `<<<` on `Nat` (a one shifted by less than 64 places never
  leaves the block).
* Mutating member functions pass the object explicitly and return it together
  with the outcome, so the state reached when an exception leaves a call is
  still visible.  `std::vector::at` out of range is `error.out_of_range`;
  an unchecked access out of range (`operator[]` on the vector or on a local
  array) is `error.undefined_behaviour`.
* Memory exhaustion is not modelled: allocating the vector always succeeds.
* `bloom_filter_params::create_ideal` is embedded twice.  In `create_ideal_fp` a `double`
  is a finite value, an infinity or a NaN, and the operations that round (product,
  quotient, `std::log`, `std::pow`, integer to `double`) as well as the result of a
  conversion out of range to `std::size_t` are a parameter: theorems over it hold for
  every platform.  In `create_ideal` a `double` is an element of an ordered field with
  exact arithmetic (the reals in the theorems) and a conversion that does not fit
  `std::size_t` is `error.undefined_behaviour`; it serves to evaluate the code at
  concrete inputs whose quotient lies away from an integer, and it agrees with
  `create_ideal_fp` over the arithmetic that rounds nothing.
* A stream is a stream in good state with the classic locale; of its format flags the
  base field, `showbase`, `uppercase` and the adjust field are modelled, next to the fill
  character and the width.  The text of exception messages is not modelled.
-/

namespace leekpp

/-! ## Machine arithmetic -/

/-- Number of bits of `std::size_t`. -/
def size_bits : Nat := 64

/-- Number of values of `std::size_t`. -/
def size_mod : Nat := 2 ^ size_bits

/-- Addition in `std::size_t`. -/
def size_add (a b : Nat) : Nat := (a + b) % size_mod

/-- Subtraction in `std::size_t` (operands below `size_mod`). -/
def size_sub (a b : Nat) : Nat := (a + size_mod - b) % size_mod

/-- The value `sizeof(block_type)` for `block_type = std::size_t`. -/
def sizeof_block_type : Nat := 8

/-- Outcomes other than a normal return. -/
inductive error where
  | out_of_range
  | invalid_argument
  | undefined_behaviour
  deriving DecidableEq, Repr

deriving instance DecidableEq for Except

/-! ## `basic_storage` -/

/-- The class `basic_storage<>`: the block vector and the logical bit count. -/
structure basic_storage where
  _storage : List Nat
  _bit_count : Nat
  deriving DecidableEq, Repr

namespace basic_storage

/-- The static member `block_count(size_type bit_count)`:
`(bit_count + sizeof(block_type)*8 - 1) / 8 / sizeof(block_type)`. -/
def block_count_for (bit_count : Nat) : Nat :=
  size_sub (size_add bit_count (sizeof_block_type * 8)) 1 / 8 / sizeof_block_type

/-- The constructor `basic_storage(size_type bit_count)`. -/
def construct (bit_count : Nat) : basic_storage :=
  { _storage := List.replicate (block_count_for bit_count) 0, _bit_count := bit_count }

/-- The member `bit_count()`. -/
def bit_count (s : basic_storage) : Nat := s._bit_count

/-- The member `block_count()`. -/
def block_count (s : basic_storage) : Nat := s._storage.length

/-- The member `operator[](size_type idx)`; `none` is the unchecked access out of range. -/
def load (s : basic_storage) (idx : Nat) : Option Nat := s._storage[idx]?

/-- The member `set_mask(block_idx, mask)`: `_storage.at(block_idx) |= mask`. -/
def set_mask (s : basic_storage) (block_idx mask : Nat) : Except error Unit × basic_storage :=
  match s._storage[block_idx]? with
  | some b => (.ok (), { s with _storage := s._storage.set block_idx (b ||| mask) })
  | none => (.error .out_of_range, s)

/-- The member `clear()`: `_storage.assign(_storage.size(), block_type(0))`. -/
def clear (s : basic_storage) : basic_storage :=
  { s with _storage := List.replicate s._storage.length 0 }

end basic_storage

/-! ## The Mixer concept -/

/-- Modelled from the spec: the Mixer concept of `mixer.hpp`, which the filter is generic in
and which is therefore a parameter here.  `construct x bit_count` is `mixer_type mixer(x, bit_count)`,
`call` is `operator()` (the index produced and the generator state after the call),
`base_offset` is `base_offset()` and `block_bits` the associated constant. -/
structure mixer (α σ : Type) where
  block_bits : Nat
  construct : α → Nat → σ
  call : σ → Nat × σ
  base_offset : σ → Nat

/-- The indices returned by the first `n` calls of `operator()` from generator state `ms`. -/
def mixer.outputs {α σ : Type} (M : mixer α σ) : Nat → σ → List Nat
  | 0, _ => []
  | n + 1, ms => (M.call ms).1 :: mixer.outputs M n (M.call ms).2

/-! ## `bloom_filter_params` and `basic_bloom_filter` -/

/-- The struct `bloom_filter_params`. -/
structure bloom_filter_params where
  bit_count : Nat
  num_hashes : Nat
  deriving DecidableEq, Repr

/-- The class `basic_bloom_filter`. -/
structure basic_bloom_filter where
  _data : basic_storage
  _params : bloom_filter_params
  deriving DecidableEq, Repr

namespace basic_bloom_filter

variable {α σ : Type}

/-- The member `clear()`. -/
def clear (f : basic_bloom_filter) : basic_bloom_filter :=
  { f with _data := f._data.clear }

/-- The constructor `basic_bloom_filter(const bloom_filter_params& params)`. -/
def construct (params : bloom_filter_params) : basic_bloom_filter :=
  clear { _data := basic_storage.construct params.bit_count, _params := params }

/-- The member `params()`. -/
def params (f : basic_bloom_filter) : bloom_filter_params := f._params

/-- The member `data()`. -/
def data (f : basic_bloom_filter) : basic_storage := f._data

/-- The loop of `count_impl` for `block_bits == 0`, with `n` iterations left. -/
def count_loop (M : mixer α σ) (d : basic_storage) : Nat → σ → Except error Nat
  | 0, _ => .ok 1
  | n + 1, ms =>
    let bit_idx := (M.call ms).1
    let block_idx := bit_idx / (8 * sizeof_block_type)
    let block_bit := bit_idx % (8 * sizeof_block_type)
    match d.load block_idx with
    | none => .error .undefined_behaviour
    | some b =>
      if b &&& (1 <<< block_bit) = 0 then .ok 0
      else count_loop M d n (M.call ms).2

/-- The member `count_impl` for `block_bits == 0`. -/
def count_impl_unblocked (M : mixer α σ) (f : basic_bloom_filter) (ms : σ) : Except error Nat :=
  count_loop M f._data f._params.num_hashes ms

/-- The loop of `insert_impl` for `block_bits == 0`, with `n` iterations left. -/
def insert_loop (M : mixer α σ) : Nat → σ → basic_storage → Except error Unit × basic_storage
  | 0, _, d => (.ok (), d)
  | n + 1, ms, d =>
    let bit_idx := (M.call ms).1
    let block_idx := bit_idx / (8 * sizeof_block_type)
    let block_bit := bit_idx % (8 * sizeof_block_type)
    match d.set_mask block_idx (1 <<< block_bit) with
    | (.ok _, d') => insert_loop M n (M.call ms).2 d'
    | (.error e, d') => (.error e, d')

/-- The member `insert_impl` for `block_bits == 0`. -/
def insert_impl_unblocked (M : mixer α σ) (f : basic_bloom_filter) (ms : σ) :
    Except error Unit × basic_bloom_filter :=
  let r := insert_loop M f._params.num_hashes ms f._data
  (r.1, { f with _data := r.2 })

/-- The constant `storage_blocks_in_mixer_block`. -/
def storage_blocks_in_mixer_block (M : mixer α σ) : Nat :=
  M.block_bits / (sizeof_block_type * 8)

/-- The probe loop of `count_impl` for `block_bits > 0`, with `n` iterations left;
`blocks` and `block_loaded` are the two local arrays.  A cell not yet loaded is filled from
the storage and marked, and the value tested is the one just stored. -/
def count_loop_blocked (M : mixer α σ) (d : basic_storage)
    (base_bit_offset base_block_offset : Nat) :
    Nat → σ → List Nat → List Bool → Except error Nat
  | 0, _, _, _ => .ok 1
  | n + 1, ms, blocks, block_loaded =>
    let inner_bit_idx := size_sub (M.call ms).1 base_bit_offset
    let inner_block_idx := inner_bit_idx / (8 * sizeof_block_type)
    let inner_block_bit := inner_bit_idx % (8 * sizeof_block_type)
    match block_loaded[inner_block_idx]?, blocks[inner_block_idx]? with
    | some loaded, some cached =>
      if loaded then
        if cached &&& (1 <<< inner_block_bit) = 0 then .ok 0
        else count_loop_blocked M d base_bit_offset base_block_offset n (M.call ms).2
          blocks block_loaded
      else
        match d.load (base_block_offset + inner_block_idx) with
        | none => .error .undefined_behaviour
        | some b =>
          if b &&& (1 <<< inner_block_bit) = 0 then .ok 0
          else count_loop_blocked M d base_bit_offset base_block_offset n (M.call ms).2
            (blocks.set inner_block_idx b) (block_loaded.set inner_block_idx true)
    | _, _ => .error .undefined_behaviour

/-- The member `count_impl` for `block_bits > 0`.  The local array `blocks` starts
uninitialised in the source; its cells are only read after `block_loaded` marks them. -/
def count_impl_blocked (M : mixer α σ) (f : basic_bloom_filter) (ms : σ) : Except error Nat :=
  let blocks := List.replicate (storage_blocks_in_mixer_block M) 0
  let block_loaded := List.replicate (storage_blocks_in_mixer_block M) false
  let base_bit_offset := M.base_offset ms
  let base_block_offset := base_bit_offset / (sizeof_block_type * 8)
  count_loop_blocked M f._data base_bit_offset base_block_offset f._params.num_hashes ms
    blocks block_loaded

/-- The first loop of `insert_impl` for `block_bits > 0`: the probes are gathered in the
local array `blocks`. -/
def insert_accumulate (M : mixer α σ) (base_bit_offset : Nat) :
    Nat → σ → List Nat → Except error (List Nat)
  | 0, _, blocks => .ok blocks
  | n + 1, ms, blocks =>
    let inner_bit_idx := size_sub (M.call ms).1 base_bit_offset
    let inner_block_idx := inner_bit_idx / (8 * sizeof_block_type)
    let inner_block_bit := inner_bit_idx % (8 * sizeof_block_type)
    match blocks[inner_block_idx]? with
    | some b =>
      insert_accumulate M base_bit_offset n (M.call ms).2
        (blocks.set inner_block_idx (b ||| (1 <<< inner_block_bit)))
    | none => .error .undefined_behaviour

/-- The second loop of `insert_impl` for `block_bits > 0`: `idx` is the loop counter and the
list holds `blocks[idx]`, `blocks[idx + 1]`, ... -/
def insert_flush (base_block_offset : Nat) :
    Nat → List Nat → basic_storage → Except error Unit × basic_storage
  | _, [], d => (.ok (), d)
  | idx, b :: rest, d =>
    if b ≠ 0 then
      match d.set_mask (base_block_offset + idx) b with
      | (.ok _, d') => insert_flush base_block_offset (idx + 1) rest d'
      | (.error e, d') => (.error e, d')
    else insert_flush base_block_offset (idx + 1) rest d

/-- The member `insert_impl` for `block_bits > 0`. -/
def insert_impl_blocked (M : mixer α σ) (f : basic_bloom_filter) (ms : σ) :
    Except error Unit × basic_bloom_filter :=
  let blocks := List.replicate (storage_blocks_in_mixer_block M) 0
  let base_bit_offset := M.base_offset ms
  let base_block_offset := base_bit_offset / (sizeof_block_type * 8)
  match insert_accumulate M base_bit_offset f._params.num_hashes ms blocks with
  | .error e => (.error e, f)
  | .ok blocks' =>
    let r := insert_flush base_block_offset 0 blocks' f._data
    (r.1, { f with _data := r.2 })

/-- The member `count(x)`; the overload of `count_impl` is chosen by `block_bits`.
The member is `const`: the filter is handed back as it was received. -/
def count (M : mixer α σ) (f : basic_bloom_filter) (x : α) : Except error Nat × basic_bloom_filter :=
  let ms := M.construct x f._data.bit_count
  (if M.block_bits = 0 then count_impl_unblocked M f ms else count_impl_blocked M f ms, f)

/-- The member `insert(x)`; the overload of `insert_impl` is chosen by `block_bits`. -/
def insert (M : mixer α σ) (f : basic_bloom_filter) (x : α) :
    Except error Unit × basic_bloom_filter :=
  let ms := M.construct x f._data.bit_count
  if M.block_bits = 0 then insert_impl_unblocked M f ms else insert_impl_blocked M f ms

/-- A caller issuing `insert` for each element of a list in turn; an exception leaving
one call ends the run. -/
def insert_all (M : mixer α σ) (f : basic_bloom_filter) : List α →
    Except error Unit × basic_bloom_filter
  | [] => (.ok (), f)
  | x :: xs =>
    match insert M f x with
    | (.ok _, f') => insert_all M f' xs
    | (.error e, f') => (.error e, f')

end basic_bloom_filter

/-! ## Bit-level view of a storage -/

/-- Width of a block in bits, `8 * sizeof(block_type)`. -/
def block_width : Nat := 8 * sizeof_block_type

/-- Bit `j` of a storage: bit `j % block_width` of block `j / block_width`
(`false` when there is no such block). -/
def basic_storage.test_bit (d : basic_storage) (j : Nat) : Bool :=
  match d._storage[j / block_width]? with
  | some b => b.testBit (j % block_width)
  | none => false

/-- The storage invariant: the blocks hold at least `bit_count` bits. -/
def basic_storage.covers (d : basic_storage) : Prop :=
  d._bit_count ≤ block_width * d._storage.length

instance (d : basic_storage) : Decidable d.covers := by
  unfold basic_storage.covers; infer_instance

/-- The mask that a list of bit indices contributes to block `k`. -/
def probe_mask : List Nat → Nat → Nat
  | [], _ => 0
  | i :: is, k => (if i / block_width = k then 1 <<< (i % block_width) else 0) ||| probe_mask is k

/-- The unblocked insertion loop run over an explicit list of bit indices. -/
def set_bits : List Nat → basic_storage → Except error Unit × basic_storage
  | [], d => (.ok (), d)
  | i :: is, d =>
    match d.set_mask (i / block_width) (1 <<< (i % block_width)) with
    | (.ok _, d') => set_bits is d'
    | (.error e, d') => (.error e, d')

/-- The unblocked probing loop run over an explicit list of bit indices. -/
def probe_bits (d : basic_storage) : List Nat → Except error Nat
  | [] => .ok 1
  | i :: is =>
    match d.load (i / block_width) with
    | none => .error .undefined_behaviour
    | some b => if b &&& (1 <<< (i % block_width)) = 0 then .ok 0 else probe_bits d is

/-- The indices whose block exists, up to the first one whose block does not. -/
def in_range_part (len : Nat) (is : List Nat) : List Nat :=
  is.takeWhile (fun i => decide (i / block_width < len))

/-- Storage `e` is storage `d` with `m k` or-ed into block `k`, for every `k`. -/
def or_update (d e : basic_storage) (m : Nat → Nat) : Prop :=
  e._bit_count = d._bit_count ∧ e._storage.length = d._storage.length ∧
    ∀ k : Nat, e._storage[k]? = (d._storage[k]?).map (fun b => b ||| m k)

/-- The mask a blocked insertion contributes to storage block `k`: the probes are taken
relative to `base` and block `t` of the local array goes to block `base / block_width + t`. -/
def blocked_mask (base : Nat) (is : List Nat) (k : Nat) : Nat :=
  if base / block_width ≤ k then
    probe_mask (is.map (fun i => size_sub i base)) (k - base / block_width)
  else 0

/-- The probes of a blocked insertion when all of them fall inside the local array of
`nb` blocks, and no probe otherwise (the insertion then stops before any write). -/
def blocked_part (nb base : Nat) (is : List Nat) : List Nat :=
  if ∀ i ∈ is, size_sub i base / block_width < nb then is else []

namespace basic_bloom_filter

variable {α σ : Type}

/-- The bit indices an operation on element `x` probes. -/
def probes (M : mixer α σ) (f : basic_bloom_filter) (x : α) : List Nat :=
  M.outputs f._params.num_hashes (M.construct x f._data.bit_count)

/-- Two filters agree in everything an operation reads besides the block values. -/
def same_shape (f g : basic_bloom_filter) : Prop :=
  g._params = f._params ∧ g._data._bit_count = f._data._bit_count ∧
    g._data._storage.length = f._data._storage.length

/-- Filter `g` has the shape of `f` and every bit set in `f` is set in `g`. -/
def grows (f g : basic_bloom_filter) : Prop :=
  same_shape f g ∧ ∀ j : Nat, f._data.test_bit j = true → g._data.test_bit j = true

/-- The mask that `insert(x)` or-s into block `k`. -/
def insert_mask (M : mixer α σ) (f : basic_bloom_filter) (x : α) : Nat → Nat :=
  if M.block_bits = 0 then
    probe_mask (in_range_part f._data._storage.length (probes M f x))
  else
    blocked_mask (M.base_offset (M.construct x f._data.bit_count))
      (blocked_part (storage_blocks_in_mixer_block M)
        (M.base_offset (M.construct x f._data.bit_count)) (probes M f x))

/-- The conditions the blocked loops rely on for element `x` on filter `f`: the region width
and the region start are multiples of the block width, and each of the probes lies in the
region and below `bit_count`. -/
def blocked_contract (M : mixer α σ) (f : basic_bloom_filter) (x : α) : Prop :=
  block_width ∣ M.block_bits ∧
  block_width ∣ M.base_offset (M.construct x f._data.bit_count) ∧
  ∀ i ∈ probes M f x,
    M.base_offset (M.construct x f._data.bit_count) ≤ i ∧
    i < M.base_offset (M.construct x f._data.bit_count) + M.block_bits ∧
    i < f._data.bit_count

/-- The filter after `n` calls `insert(x)` in a row, whatever each call reports. -/
def insert_times (M : mixer α σ) (f : basic_bloom_filter) (x : α) : Nat → basic_bloom_filter
  | 0 => f
  | n + 1 => insert_times M (insert M f x).2 x n

/-- Modelled from the spec: the Mixer contract of section 4.3 for the first `num_hashes`
indices of element `x`: each is below `bit_count`, and for a blocking mixer the region width
is a multiple of the block width, the region start a multiple of the region width, and each
index lies in the region. -/
def mixer_contract (M : mixer α σ) (bit_count num_hashes : Nat) (x : α) : Prop :=
  (∀ i ∈ M.outputs num_hashes (M.construct x bit_count), i < bit_count) ∧
  (M.block_bits ≠ 0 →
    block_width ∣ M.block_bits ∧
    M.block_bits ∣ M.base_offset (M.construct x bit_count) ∧
    ∀ i ∈ M.outputs num_hashes (M.construct x bit_count),
      M.base_offset (M.construct x bit_count) ≤ i ∧
      i < M.base_offset (M.construct x bit_count) + M.block_bits)

end basic_bloom_filter

/-! ## Assertions and the adopting constructor -/

/-- The macro `LEEK_ASSERT(expr, ex, message)` in its default configuration
(`LEEK_ASSERT_THROW_STD` is 1): `while (!(expr)) throw std::ex(message)`. -/
def LEEK_ASSERT (expr : Bool) (ex : error) : Except error Unit :=
  if expr then .ok () else .error ex

/-- The constructor `basic_bloom_filter(const bloom_filter_params& params, storage_type storage)`.
The member `_data` is move-constructed from `storage` before the body runs, so the assertion
reads the moved-from parameter: the implicit move constructor of `basic_storage` moves the
vector (left empty) and copies `_bit_count`.  An exception leaving the body means no filter. -/
def basic_bloom_filter.construct_with_storage (params : bloom_filter_params)
    (storage : basic_storage) : Except error basic_bloom_filter :=
  let _data := storage
  let storage : basic_storage := { _storage := [], _bit_count := storage._bit_count }
  match LEEK_ASSERT (decide (params.bit_count ≤ storage.bit_count)) .invalid_argument with
  | .error e => .error e
  | .ok _ => .ok { _data := _data, _params := params }

/-! ## Stream output (`storage_io.hpp`, `bloom_filter_io.hpp`) -/

namespace ostream

end ostream

section parameter_model

variable {K : Type} [LinearOrderedField K] [FloorRing K]

/-- Multiplication in `std::size_t`. -/
def size_mul (a b : Nat) : Nat := (a * b) % size_mod

/-- The conversion of a `double` to `std::size_t`: the fractional part is discarded, and the
behaviour is undefined when the truncated value does not fit `std::size_t`. -/
def size_of_double (x : K) : Except error Nat :=
  if -1 < x ∧ x < (size_mod : K) then .ok ⌊x⌋₊ else .error .undefined_behaviour

/-- The function `std::round`: the nearest integer, halfway cases away from zero. -/
def std_round (x : K) : K :=
  if 0 ≤ x then ((⌊x + 1 / 2⌋ : Int) : K) else -((⌊-x + 1 / 2⌋ : Int) : K)

/-- The member `bloom_filter_params::expected_fpr(elements)`; the exponent
`num_hashes * elements` is a product in `std::size_t`. -/
def bloom_filter_params.expected_fpr (params : bloom_filter_params) (elements : Nat) : K :=
  let inner : K := (1 - 1 / (params.bit_count : K)) ^ (size_mul params.num_hashes elements)
  (1 - inner) ^ params.num_hashes

/-- The static member `bloom_filter_params::create_ideal(desired_fpr, expected_elements)`;
`std::pow(x, 2.0)` is the square. -/
def bloom_filter_params.create_ideal (log : K → K) (desired_fpr : K) (expected_elements : Nat) :
    Except error bloom_filter_params :=
  match LEEK_ASSERT (decide (0 < desired_fpr ∧ desired_fpr < 1)) .invalid_argument with
  | .error e => .error e
  | .ok _ =>
    match LEEK_ASSERT (decide (expected_elements ≠ 0)) .invalid_argument with
    | .error e => .error e
    | .ok _ =>
      let num : K := -(expected_elements : K) * log desired_fpr
      let den : K := (log 2) ^ 2
      match size_of_double (num / den) with
      | .error e => .error e
      | .ok bit_count =>
        let num_hashes : K := std_round (log 2 * (bit_count : K) / (expected_elements : K))
        match size_of_double num_hashes with
        | .error e => .error e
        | .ok num_hashes => .ok { bit_count := bit_count, num_hashes := num_hashes }

/-- The static member `basic_bloom_filter::create_ideal(desired_fpr, expected_elements)`. -/
def basic_bloom_filter.create_ideal {α σ : Type} (M : mixer α σ) (log : K → K) (desired_fpr : K)
    (expected_elements : Nat) : Except error basic_bloom_filter :=
  match bloom_filter_params.create_ideal log desired_fpr expected_elements with
  | .error e => .error e
  | .ok params =>
    let params : bloom_filter_params :=
      if M.block_bits > 0 ∧ params.bit_count % M.block_bits ≠ 0 then
        { params with
          bit_count := size_add params.bit_count (M.block_bits - params.bit_count % M.block_bits) }
      else params
    .ok (basic_bloom_filter.construct params)

/-- The quotient `-n * ln p / (ln 2)^2` that `create_ideal` truncates to the bit count. -/
def ideal_bits_of (log : K → K) (p : K) (n : Nat) : K :=
  -(n : K) * log p / (log 2) ^ 2

/-- The product `ln 2 * m / n` that `create_ideal` rounds to the hash count. -/
def ideal_hashes_of (log : K → K) (m n : Nat) : K :=
  log 2 * (m : K) / (n : K)

end parameter_model

/-! ## The arithmetic of `double` left to the platform

The results of a product, a quotient, `std::log`, `std::pow` and of the conversion of an
integer to `double` are rounded, and the conversion of a `double` out of range to
`std::size_t` is left open by the language; the model below takes these as a parameter `A`.
Comparison, negation, `std::round` and the conversion to `std::size_t` of a value in range
are exact and are defined here.  The parameter model above is the case of an arithmetic that
rounds nothing (`exact_arith`, `create_ideal_fp_exact`). -/

/-- A value of the type `double`: a finite number, an infinity or a NaN.  The finite values
are taken in the field `K`. -/
inductive double (K : Type) where
  | finite (x : K)
  | pos_inf
  | neg_inf
  | nan

section double_model

variable {K : Type} [LinearOrderedField K] [FloorRing K]

/-- The comparison `a < b` on `double`: exact, and false as soon as one side is a NaN. -/
def double.lt : double K → double K → Bool
  | .finite a, .finite b => decide (a < b)
  | .finite _, .pos_inf => true
  | .neg_inf, .finite _ => true
  | .neg_inf, .pos_inf => true
  | _, _ => false

/-- The unary minus on `double`: exact. -/
def double.neg : double K → double K
  | .finite a => .finite (-a)
  | .pos_inf => .neg_inf
  | .neg_inf => .pos_inf
  | .nan => .nan

/-- The function `std::round` on `double`: exact on a finite value, the argument itself
otherwise. -/
def double.round : double K → double K
  | .finite a => .finite (std_round a)
  | d => d

/-- The operations on `double` whose result is rounded or is left open by the language: the
conversion of a `std::size_t` to `double`, product, quotient, `std::log`, `std::pow`, and the
value that the conversion to `std::size_t` yields for an argument out of range. -/
structure double_arith (K : Type) where
  of_size : Nat → double K
  mul : double K → double K → double K
  div : double K → double K → double K
  log : double K → double K
  pow : double K → double K → double K
  out_of_range : double K → Nat

/-- The conversion `std::size_t(x)` of a `double`: the fractional part is discarded when the
truncated value fits `std::size_t`; otherwise the language leaves the result open and the
platform answers some value of `std::size_t`. -/
def double_arith.to_size (A : double_arith K) : double K → Nat
  | .finite x =>
    if -1 < x ∧ x < (size_mod : K) then ⌊x⌋₊ else A.out_of_range (.finite x) % size_mod
  | d => A.out_of_range d % size_mod

/-- The quotient `num / den` of `bloom_filter_params::create_ideal` as the platform computes
it. -/
def double_arith.ideal_bits (A : double_arith K) (desired_fpr : double K)
    (expected_elements : Nat) : double K :=
  A.div (A.mul (double.neg (A.of_size expected_elements)) (A.log desired_fpr))
    (A.pow (A.log (.finite 2)) (.finite 2))

/-- The argument of `std::round` in `bloom_filter_params::create_ideal` as the platform
computes it. -/
def double_arith.ideal_hashes (A : double_arith K) (bit_count expected_elements : Nat) :
    double K :=
  A.div (A.mul (A.log (.finite 2)) (A.of_size bit_count)) (A.of_size expected_elements)

/-- The static member `bloom_filter_params::create_ideal(desired_fpr, expected_elements)`
over the arithmetic `A` of the platform. -/
def bloom_filter_params.create_ideal_fp (A : double_arith K) (desired_fpr : double K)
    (expected_elements : Nat) : Except error bloom_filter_params :=
  match LEEK_ASSERT (double.lt (.finite 0) desired_fpr && double.lt desired_fpr (.finite 1))
      .invalid_argument with
  | .error e => .error e
  | .ok _ =>
    match LEEK_ASSERT (decide (expected_elements ≠ 0)) .invalid_argument with
    | .error e => .error e
    | .ok _ =>
      let num := A.mul (double.neg (A.of_size expected_elements)) (A.log desired_fpr)
      let den := A.pow (A.log (.finite 2)) (.finite 2)
      let bit_count := A.to_size (A.div num den)
      let num_hashes := double.round
        (A.div (A.mul (A.log (.finite 2)) (A.of_size bit_count)) (A.of_size expected_elements))
      .ok { bit_count := bit_count, num_hashes := A.to_size num_hashes }

end double_model

/-! ## Runs of `insert` -/

namespace basic_bloom_filter

variable {α σ : Type}

/-- The filter after `insert` has been called for each element of a list in turn, whatever
each call reports. -/
def insert_each (M : mixer α σ) (f : basic_bloom_filter) : List α → basic_bloom_filter
  | [] => f
  | x :: xs => insert_each M (insert M f x).2 xs

/-- The mask that the calls `insert` for a list of elements or into block `k`. -/
def each_mask (M : mixer α σ) (f : basic_bloom_filter) : List α → Nat → Nat
  | [], _ => 0
  | x :: xs, k => insert_mask M f x k ||| each_mask M f xs k

end basic_bloom_filter

/-! ## Test instances -/

/-- A mixer without blocking whose `j`-th index for element `x` is `(x + 7 * j) % bit_count`. -/
def test_mixer : mixer Nat (Nat × Nat × Nat) where
  block_bits := 0
  construct := fun x bc => (x, bc, 0)
  call := fun s => ((s.1 + 7 * s.2.2) % s.2.1, (s.1, s.2.1, s.2.2 + 1))
  base_offset := fun _ => 0

/-- A blocking mixer with regions of 128 bits: element `x` selects region
`x % (bit_count / 128)` and its `j`-th index is `(x + 7 * j) % 128` inside the region. -/
def test_mixer_blocked : mixer Nat (Nat × Nat × Nat) where
  block_bits := 128
  construct := fun x bc => (x, bc, 0)
  call := fun s => ((s.1 % (s.2.1 / 128)) * 128 + (s.1 + 7 * s.2.2) % 128, (s.1, s.2.1, s.2.2 + 1))
  base_offset := fun s => (s.1 % (s.2.1 / 128)) * 128

/-- A blocking mixer whose regions are `2 ^ 63` bits wide and which always answers the
region start. -/
def test_mixer_wide : mixer Nat Nat where
  block_bits := 2 ^ 63
  construct := fun _ _ => 0
  call := fun s => (0, s)
  base_offset := fun _ => 0

/-- An arithmetic that rounds nothing: every operation is exact on finite values, `std::log`
is the function handed in, `std::pow` answers for the exponent 2 only, and a conversion out
of range gives 0. -/
def exact_arith {K : Type} [LinearOrderedField K] (log : K → K) : double_arith K where
  of_size := fun n => .finite (n : K)
  mul := fun a b =>
    match a, b with
    | .finite x, .finite y => .finite (x * y)
    | _, _ => .nan
  div := fun a b =>
    match a, b with
    | .finite x, .finite y => if y = 0 then .nan else .finite (x / y)
    | _, _ => .nan
  log := fun a =>
    match a with
    | .finite x => if 0 < x then .finite (log x) else .nan
    | _ => .nan
  pow := fun a b =>
    match a, b with
    | .finite x, .finite y => if y = 2 then .finite (x ^ 2) else .nan
    | _, _ => .nan
  out_of_range := fun _ => 0

/-! ## Lemmas: machine arithmetic and bits -/

theorem block_width_eq : block_width = 64 := rfl

theorem width_eq : 8 * sizeof_block_type = block_width := rfl

theorem width_eq_comm : sizeof_block_type * 8 = block_width := rfl

theorem block_width_pos : 0 < block_width := by decide

theorem and_one_shiftLeft_eq_zero_iff (b k : Nat) :
    b &&& (1 <<< k) = 0 ↔ b.testBit k = false := by
  rw [Nat.one_shiftLeft, Nat.and_two_pow]
  cases h : b.testBit k <;> simp

theorem testBit_one_shiftLeft (k r : Nat) : (1 <<< k).testBit r = decide (k = r) := by
  rw [Nat.one_shiftLeft, Nat.testBit_two_pow]

theorem div_mod_eq_iff (i j : Nat) :
    (i / block_width = j / block_width ∧ i % block_width = j % block_width) ↔ i = j := by
  constructor
  · rintro ⟨h1, h2⟩
    rw [← Nat.div_add_mod i block_width, ← Nat.div_add_mod j block_width, h1, h2]
  · rintro rfl
    exact ⟨rfl, rfl⟩

theorem testBit_probe_mask (is : List Nat) (k r : Nat) :
    (probe_mask is k).testBit r = decide (∃ i ∈ is, i / block_width = k ∧ i % block_width = r) := by
  induction is with
  | nil => simp [probe_mask]
  | cons i is ih =>
    rw [probe_mask, Nat.testBit_or, ih]
    by_cases h : i / block_width = k
    · rw [if_pos h, testBit_one_shiftLeft]
      by_cases h2 : i % block_width = r <;> simp [h, h2]
    · simp [h]

theorem testBit_probe_mask_index (is : List Nat) (j : Nat) :
    (probe_mask is (j / block_width)).testBit (j % block_width) = decide (j ∈ is) := by
  rw [testBit_probe_mask]
  congr 1
  apply propext
  constructor
  · rintro ⟨i, hi, h⟩
    rwa [← (div_mod_eq_iff i j).1 h]
  · intro h
    exact ⟨j, h, rfl, rfl⟩

/-! ## Lemmas: `basic_storage` -/

namespace basic_storage

theorem set_mask_ok (d : basic_storage) (k m : Nat) (h : k < d._storage.length) :
    d.set_mask k m = (.ok (), { d with _storage := d._storage.set k (d._storage[k] ||| m) }) := by
  simp [set_mask, List.getElem?_eq_getElem h]

theorem set_mask_err (d : basic_storage) (k m : Nat) (h : d._storage.length ≤ k) :
    d.set_mask k m = (.error .out_of_range, d) := by
  simp [set_mask, List.getElem?_eq_none h]

theorem set_mask_length (d : basic_storage) (k m : Nat) :
    (d.set_mask k m).2._storage.length = d._storage.length := by
  unfold set_mask
  split <;> simp

theorem set_mask_bit_count (d : basic_storage) (k m : Nat) :
    (d.set_mask k m).2._bit_count = d._bit_count := by
  unfold set_mask
  split <;> simp

theorem ext_blocks {d e : basic_storage} (hb : d._bit_count = e._bit_count)
    (hs : ∀ k : Nat, d._storage[k]? = e._storage[k]?) : d = e := by
  cases d; cases e
  simp only [mk.injEq]
  exact ⟨List.ext_getElem? hs, hb⟩

end basic_storage

/-! ## Lemmas: the unblocked loops -/

theorem insert_loop_eq_set_bits {α σ : Type} (M : mixer α σ) (n : Nat) (ms : σ) (d : basic_storage) :
    basic_bloom_filter.insert_loop M n ms d = set_bits (M.outputs n ms) d := by
  induction n generalizing ms d with
  | zero => rfl
  | succ n ih =>
    simp only [basic_bloom_filter.insert_loop, mixer.outputs, set_bits, width_eq]
    split <;> simp_all

theorem count_loop_eq_probe_bits {α σ : Type} (M : mixer α σ) (n : Nat) (ms : σ) (d : basic_storage) :
    basic_bloom_filter.count_loop M d n ms = probe_bits d (M.outputs n ms) := by
  induction n generalizing ms with
  | zero => rfl
  | succ n ih =>
    simp only [basic_bloom_filter.count_loop, mixer.outputs, probe_bits, width_eq]
    split
    · rfl
    · split
      · rfl
      · exact ih _

theorem in_range_part_eq_self (len : Nat) (is : List Nat)
    (h : ∀ i ∈ is, i / block_width < len) : in_range_part len is = is := by
  unfold in_range_part
  rw [List.takeWhile_eq_self_iff]
  intro i hi
  simpa using h i hi

theorem set_bits_length (is : List Nat) (d : basic_storage) :
    (set_bits is d).2._storage.length = d._storage.length := by
  induction is generalizing d with
  | nil => rfl
  | cons i is ih =>
    by_cases h : i / block_width < d._storage.length
    · rw [set_bits, basic_storage.set_mask_ok d _ _ h]
      simp only
      rw [ih]
      simp
    · rw [set_bits, basic_storage.set_mask_err d _ _ (Nat.le_of_not_lt h)]

theorem set_bits_bit_count (is : List Nat) (d : basic_storage) :
    (set_bits is d).2._bit_count = d._bit_count := by
  induction is generalizing d with
  | nil => rfl
  | cons i is ih =>
    by_cases h : i / block_width < d._storage.length
    · rw [set_bits, basic_storage.set_mask_ok d _ _ h]
      simp only
      rw [ih]
    · rw [set_bits, basic_storage.set_mask_err d _ _ (Nat.le_of_not_lt h)]

theorem set_bits_blocks (is : List Nat) (d : basic_storage) (k : Nat) :
    (set_bits is d).2._storage[k]? =
      (d._storage[k]?).map (fun b => b ||| probe_mask (in_range_part d._storage.length is) k) := by
  induction is generalizing d with
  | nil =>
    simp only [set_bits, in_range_part, List.takeWhile_nil, probe_mask, Nat.or_zero]
    cases d._storage[k]? <;> rfl
  | cons i is ih =>
    by_cases h : i / block_width < d._storage.length
    · rw [set_bits, basic_storage.set_mask_ok d _ _ h]
      simp only
      rw [ih]
      have hpart : in_range_part d._storage.length (i :: is)
          = i :: in_range_part d._storage.length is := by
        simp [in_range_part, List.takeWhile_cons, h]
      simp only [List.length_set, hpart, probe_mask, List.getElem?_set]
      by_cases hk : i / block_width = k
      · subst hk
        simp [h, List.getElem?_eq_getElem h, Nat.or_assoc]
      · simp [hk]
    · rw [set_bits, basic_storage.set_mask_err d _ _ (Nat.le_of_not_lt h)]
      have hpart : in_range_part d._storage.length (i :: is) = [] := by
        simp [in_range_part, List.takeWhile_cons, h]
      simp only [hpart, probe_mask, Nat.or_zero]
      cases d._storage[k]? <;> rfl

theorem set_bits_ok_iff (is : List Nat) (d : basic_storage) :
    (set_bits is d).1 = .ok () ↔ ∀ i ∈ is, i / block_width < d._storage.length := by
  induction is generalizing d with
  | nil => simp [set_bits]
  | cons i is ih =>
    by_cases h : i / block_width < d._storage.length
    · rw [set_bits, basic_storage.set_mask_ok d _ _ h]
      simp only
      rw [ih]
      simp [h]
    · rw [set_bits, basic_storage.set_mask_err d _ _ (Nat.le_of_not_lt h)]
      simp [h]

theorem set_bits_test_bit (is : List Nat) (d : basic_storage) (j : Nat) :
    (set_bits is d).2.test_bit j =
      (d.test_bit j || (decide (j / block_width < d._storage.length)
        && decide (j ∈ in_range_part d._storage.length is))) := by
  unfold basic_storage.test_bit
  rw [set_bits_blocks]
  by_cases h : j / block_width < d._storage.length
  · simp [List.getElem?_eq_getElem h, Nat.testBit_or, testBit_probe_mask_index, h]
  · simp [List.getElem?_eq_none (Nat.le_of_not_lt h), h]

theorem probe_bits_eq_one_iff (d : basic_storage) (is : List Nat) :
    probe_bits d is = .ok 1 ↔ ∀ i ∈ is, d.test_bit i = true := by
  induction is with
  | nil => simp [probe_bits]
  | cons i is ih =>
    simp only [probe_bits, basic_storage.load, basic_storage.test_bit, List.forall_mem_cons]
    cases hb : d._storage[i / block_width]? with
    | none => simp
    | some b =>
      simp only
      by_cases hz : b &&& (1 <<< (i % block_width)) = 0
      · have := (and_one_shiftLeft_eq_zero_iff b _).1 hz
        simp [hz, this]
      · have : b.testBit (i % block_width) = true := by
          by_contra hc
          exact hz ((and_one_shiftLeft_eq_zero_iff b _).2 (by simpa using hc))
        simp only [hz, if_false, this, true_and]
        exact ih

theorem probe_bits_zero_or_one (d : basic_storage) (is : List Nat)
    (h : ∀ i ∈ is, i / block_width < d._storage.length) :
    probe_bits d is = .ok 0 ∨ probe_bits d is = .ok 1 := by
  induction is with
  | nil => right; rfl
  | cons i is ih =>
    have hi := h i (List.mem_cons_self _ _)
    simp only [probe_bits, basic_storage.load, List.getElem?_eq_getElem hi]
    by_cases hz : d._storage[i / block_width] &&& (1 <<< (i % block_width)) = 0
    · left; simp [hz]
    · simp only [hz, if_false]
      exact ih (fun i hi => h i (List.mem_cons_of_mem _ hi))

/-! ## Lemmas: storage construction -/

theorem size_sub_eq (a b : Nat) (hb : b ≤ a) (ha : a < size_mod) : size_sub a b = a - b := by
  unfold size_sub
  have h : a + size_mod - b = (a - b) + size_mod := by omega
  rw [h, Nat.add_mod_right, Nat.mod_eq_of_lt (by omega)]

theorem block_count_for_eq (n : Nat) (h : n + block_width ≤ size_mod) :
    basic_storage.block_count_for n = (n + block_width - 1) / block_width := by
  simp only [basic_storage.block_count_for, size_sub, size_add, size_mod, size_bits,
    sizeof_block_type, block_width] at *
  omega

theorem construct_covers (n : Nat) (h : n + block_width ≤ size_mod) :
    (basic_storage.construct n).covers := by
  have hc := block_count_for_eq n h
  simp only [basic_storage.covers, basic_storage.construct, List.length_replicate, hc]
  simp only [block_width, sizeof_block_type] at *
  omega

theorem covers_in_range (d : basic_storage) (hc : d.covers) (i : Nat) (hi : i < d._bit_count) :
    i / block_width < d._storage.length := by
  unfold basic_storage.covers at hc
  rw [Nat.div_lt_iff_lt_mul block_width_pos]
  rw [Nat.mul_comm]
  omega

/-! ## Lemmas: blocks updated by or-ing masks -/

theorem or_update_test_bit {d e : basic_storage} {m : Nat → Nat} (h : or_update d e m) (j : Nat) :
    e.test_bit j = (d.test_bit j || (decide (j / block_width < d._storage.length)
      && (m (j / block_width)).testBit (j % block_width))) := by
  unfold basic_storage.test_bit
  rw [h.2.2]
  by_cases hj : j / block_width < d._storage.length
  · simp [List.getElem?_eq_getElem hj, Nat.testBit_or, hj]
  · simp [List.getElem?_eq_none (Nat.le_of_not_lt hj), hj]

theorem or_update_mono {d e : basic_storage} {m : Nat → Nat} (h : or_update d e m) (j : Nat)
    (hj : d.test_bit j = true) : e.test_bit j = true := by
  rw [or_update_test_bit h, hj]
  rfl

theorem or_update_idem {d e g : basic_storage} {m : Nat → Nat} (h1 : or_update d e m)
    (h2 : or_update e g m) : g = e := by
  apply basic_storage.ext_blocks (h2.1)
  intro k
  rw [h2.2.2, h1.2.2]
  cases d._storage[k]? with
  | none => rfl
  | some b => simp [Nat.or_assoc]

theorem set_bits_or_update (is : List Nat) (d : basic_storage) :
    or_update d (set_bits is d).2 (probe_mask (in_range_part d._storage.length is)) :=
  ⟨set_bits_bit_count is d, set_bits_length is d, set_bits_blocks is d⟩

/-! ## Lemmas: the blocked loops -/

theorem insert_accumulate_ok {α σ : Type} (M : mixer α σ) (base n : Nat) (ms : σ) (blocks : List Nat)
    (h : ∀ i ∈ M.outputs n ms, size_sub i base / block_width < blocks.length) :
    ∃ blocks', basic_bloom_filter.insert_accumulate M base n ms blocks = .ok blocks' ∧
      blocks'.length = blocks.length ∧
      ∀ t : Nat, blocks'[t]? = (blocks[t]?).map
        (fun b => b ||| probe_mask ((M.outputs n ms).map (fun i => size_sub i base)) t) := by
  induction n generalizing ms blocks with
  | zero =>
    refine ⟨blocks, rfl, rfl, fun t => ?_⟩
    simp only [mixer.outputs, List.map_nil, probe_mask, Nat.or_zero]
    cases blocks[t]? <;> rfl
  | succ n ih =>
    simp only [mixer.outputs, List.forall_mem_cons] at h
    obtain ⟨h0, hrest⟩ := h
    simp only [basic_bloom_filter.insert_accumulate, width_eq, List.getElem?_eq_getElem h0]
    obtain ⟨blocks', he, hl, hb⟩ := ih (M.call ms).2
      (blocks.set (size_sub (M.call ms).1 base / block_width)
        (blocks[size_sub (M.call ms).1 base / block_width] |||
          1 <<< (size_sub (M.call ms).1 base % block_width)))
      (by simpa using hrest)
    refine ⟨blocks', he, by simpa using hl, fun t => ?_⟩
    rw [hb]
    simp only [mixer.outputs, List.map_cons, probe_mask, List.getElem?_set]
    by_cases ht : size_sub (M.call ms).1 base / block_width = t
    · subst ht
      simp [h0, List.getElem?_eq_getElem h0, Nat.or_assoc]
    · simp [ht]

theorem insert_accumulate_err {α σ : Type} (M : mixer α σ) (base n : Nat) (ms : σ) (blocks : List Nat)
    (h : ¬ ∀ i ∈ M.outputs n ms, size_sub i base / block_width < blocks.length) :
    basic_bloom_filter.insert_accumulate M base n ms blocks = .error .undefined_behaviour := by
  induction n generalizing ms blocks with
  | zero => simp [mixer.outputs] at h
  | succ n ih =>
    simp only [mixer.outputs, List.forall_mem_cons, not_and_or] at h
    by_cases h0 : size_sub (M.call ms).1 base / block_width < blocks.length
    · simp only [basic_bloom_filter.insert_accumulate, width_eq, List.getElem?_eq_getElem h0]
      apply ih
      rcases h with h | h
      · exact absurd h0 h
      · simpa using h
    · simp only [basic_bloom_filter.insert_accumulate, width_eq,
        List.getElem?_eq_none (Nat.le_of_not_lt h0)]

theorem insert_flush_length (bb idx : Nat) (bl : List Nat) (d : basic_storage) :
    (basic_bloom_filter.insert_flush bb idx bl d).2._storage.length = d._storage.length ∧
    (basic_bloom_filter.insert_flush bb idx bl d).2._bit_count = d._bit_count := by
  induction bl generalizing idx d with
  | nil => exact ⟨rfl, rfl⟩
  | cons b rest ih =>
    unfold basic_bloom_filter.insert_flush
    by_cases hb : b = 0
    · simp only [hb, ne_eq, not_true_eq_false, if_false]
      exact ih _ _
    · simp only [hb, ne_eq, not_false_eq_true, if_true]
      by_cases hr : bb + idx < d._storage.length
      · rw [basic_storage.set_mask_ok d _ _ hr]
        simp only
        have := ih (idx + 1) { d with _storage := d._storage.set (bb + idx) (d._storage[bb + idx] ||| b) }
        simpa using this
      · rw [basic_storage.set_mask_err d _ _ (Nat.le_of_not_lt hr)]
        exact ⟨rfl, rfl⟩

theorem insert_flush_blocks (bb idx : Nat) (bl : List Nat) (d : basic_storage) (k : Nat) :
    (basic_bloom_filter.insert_flush bb idx bl d).2._storage[k]? =
      (d._storage[k]?).map
        (fun v => v ||| (if bb + idx ≤ k then bl.getD (k - (bb + idx)) 0 else 0)) := by
  induction bl generalizing idx d with
  | nil =>
    simp only [basic_bloom_filter.insert_flush, List.getD_nil, ite_self, Nat.or_zero]
    cases d._storage[k]? <;> rfl
  | cons b rest ih =>
    unfold basic_bloom_filter.insert_flush
    by_cases hb : b = 0
    · simp only [hb, ne_eq, not_true_eq_false, if_false]
      rw [ih]
      congr 1
      funext v
      congr 1
      by_cases hk : bb + idx ≤ k
      · by_cases hk2 : bb + idx = k
        · subst hk2
          simp
        · have h3 : bb + (idx + 1) ≤ k := by omega
          have h4 : k - (bb + idx) = (k - (bb + (idx + 1))) + 1 := by omega
          simp only [hk, h3, if_true]
          rw [h4, List.getD_cons_succ]
      · have h3 : ¬ bb + (idx + 1) ≤ k := by omega
        simp [hk, h3]
    · simp only [hb, ne_eq, not_false_eq_true, if_true]
      by_cases hr : bb + idx < d._storage.length
      · rw [basic_storage.set_mask_ok d _ _ hr]
        simp only
        rw [ih]
        simp only [List.getElem?_set]
        by_cases hk2 : bb + idx = k
        · subst hk2
          simp [hr, List.getElem?_eq_getElem hr]
        · simp only [hk2, if_false]
          congr 1
          funext v
          congr 1
          by_cases hk : bb + idx ≤ k
          · have h3 : bb + (idx + 1) ≤ k := by omega
            have h4 : k - (bb + idx) = (k - (bb + (idx + 1))) + 1 := by omega
            simp only [hk, h3, if_true]
            rw [h4, List.getD_cons_succ]
          · have h3 : ¬ bb + (idx + 1) ≤ k := by omega
            simp [hk, h3]
      · rw [basic_storage.set_mask_err d _ _ (Nat.le_of_not_lt hr)]
        simp only
        by_cases hk : k < d._storage.length
        · have h3 : ¬ bb + idx ≤ k := by omega
          simp [h3]
        · simp [List.getElem?_eq_none (Nat.le_of_not_lt hk)]

theorem insert_flush_ok_iff (bb idx : Nat) (bl : List Nat) (d : basic_storage) :
    (basic_bloom_filter.insert_flush bb idx bl d).1 = .ok () ↔
      ∀ t : Nat, t < bl.length → bl.getD t 0 ≠ 0 → bb + idx + t < d._storage.length := by
  induction bl generalizing idx d with
  | nil => simp [basic_bloom_filter.insert_flush]
  | cons b rest ih =>
    have hsplit : (∀ t : Nat, t < (b :: rest).length → (b :: rest).getD t 0 ≠ 0 →
          bb + idx + t < d._storage.length) ↔
        ((b ≠ 0 → bb + idx < d._storage.length) ∧
          ∀ t : Nat, t < rest.length → rest.getD t 0 ≠ 0 → bb + (idx + 1) + t < d._storage.length) := by
      constructor
      · intro h
        refine ⟨fun hb => by simpa using h 0 (by simp) (by simpa using hb), fun t ht hne => ?_⟩
        have := h (t + 1) (by simpa using ht) (by simpa using hne)
        omega
      · rintro ⟨h0, hr⟩ t ht hne
        cases t with
        | zero => simpa using h0 (by simpa using hne)
        | succ t =>
          have := hr t (by simpa using ht) (by simpa using hne)
          omega
    rw [hsplit]
    unfold basic_bloom_filter.insert_flush
    by_cases hb : b = 0
    · simp only [hb, ne_eq, not_true_eq_false, if_false]
      rw [ih]
      simp
    · simp only [hb, ne_eq, not_false_eq_true, if_true]
      by_cases hr : bb + idx < d._storage.length
      · rw [basic_storage.set_mask_ok d _ _ hr]
        simp only
        rw [ih]
        simp [hr]
      · rw [basic_storage.set_mask_err d _ _ (Nat.le_of_not_lt hr)]
        simp [hr]

theorem probe_mask_eq_zero (is : List Nat) (k : Nat) (h : ∀ i ∈ is, i / block_width ≠ k) :
    probe_mask is k = 0 := by
  induction is with
  | nil => rfl
  | cons i is ih =>
    simp only [List.forall_mem_cons] at h
    simp [probe_mask, h.1, ih h.2]

theorem blocked_mask_nil (base k : Nat) : blocked_mask base [] k = 0 := by
  simp [blocked_mask, probe_mask]

theorem insert_impl_blocked_params {α σ : Type} (M : mixer α σ) (f : basic_bloom_filter) (ms : σ) :
    (basic_bloom_filter.insert_impl_blocked M f ms).2._params = f._params := by
  unfold basic_bloom_filter.insert_impl_blocked
  simp only
  split <;> rfl

theorem insert_impl_blocked_or_update {α σ : Type} (M : mixer α σ) (f : basic_bloom_filter) (ms : σ) :
    or_update f._data (basic_bloom_filter.insert_impl_blocked M f ms).2._data
      (blocked_mask (M.base_offset ms)
        (blocked_part (basic_bloom_filter.storage_blocks_in_mixer_block M) (M.base_offset ms)
          (M.outputs f._params.num_hashes ms))) := by
  by_cases h : ∀ i ∈ M.outputs f._params.num_hashes ms,
      size_sub i (M.base_offset ms) / block_width
        < basic_bloom_filter.storage_blocks_in_mixer_block M
  · obtain ⟨blocks', he, hl, hb⟩ := insert_accumulate_ok M (M.base_offset ms) f._params.num_hashes ms
      (List.replicate (basic_bloom_filter.storage_blocks_in_mixer_block M) 0) (by simpa using h)
    have hget : ∀ t : Nat, blocks'.getD t 0 = probe_mask
        ((M.outputs f._params.num_hashes ms).map (fun i => size_sub i (M.base_offset ms))) t := by
      intro t
      rw [List.getD_eq_getElem?_getD, hb, List.getElem?_replicate]
      by_cases ht : t < basic_bloom_filter.storage_blocks_in_mixer_block M
      · simp [ht]
      · simp only [ht, if_false, Option.map_none', Option.getD_none]
        symm
        apply probe_mask_eq_zero
        intro j hj
        simp only [List.mem_map] at hj
        obtain ⟨i, hi, rfl⟩ := hj
        have := h i hi
        omega
    unfold basic_bloom_filter.insert_impl_blocked
    simp only [he, width_eq_comm]
    have hfl := insert_flush_length (M.base_offset ms / block_width) 0 blocks' f._data
    refine ⟨hfl.2, hfl.1, fun k => ?_⟩
    rw [insert_flush_blocks]
    have hp : blocked_part (basic_bloom_filter.storage_blocks_in_mixer_block M) (M.base_offset ms)
        (M.outputs f._params.num_hashes ms) = M.outputs f._params.num_hashes ms := if_pos h
    simp only [hp, blocked_mask, Nat.add_zero, hget]
  · have he := insert_accumulate_err M (M.base_offset ms) f._params.num_hashes ms
      (List.replicate (basic_bloom_filter.storage_blocks_in_mixer_block M) 0) (by simpa using h)
    have hp : blocked_part (basic_bloom_filter.storage_blocks_in_mixer_block M) (M.base_offset ms)
        (M.outputs f._params.num_hashes ms) = [] := if_neg h
    unfold basic_bloom_filter.insert_impl_blocked
    rw [hp]
    simp only [he]
    refine ⟨rfl, rfl, fun k => ?_⟩
    cases f._data._storage[k]? <;> simp [blocked_mask_nil]

theorem region_div_mod (base i : Nat) (hbase : block_width ∣ base) (hi : base ≤ i) :
    i / block_width = base / block_width + (i - base) / block_width ∧
      i % block_width = (i - base) % block_width := by
  obtain ⟨c, rfl⟩ := hbase
  simp only [block_width, sizeof_block_type] at *
  omega

theorem count_loop_blocked_eq {α σ : Type} (M : mixer α σ) (d : basic_storage) (base nb : Nat)
    (hbase : block_width ∣ base) (n : Nat) (ms : σ) (blocks : List Nat) (loaded : List Bool)
    (hlen1 : blocks.length = nb) (hlen2 : loaded.length = nb)
    (hreg : ∀ i ∈ M.outputs n ms, base ≤ i ∧ i < size_mod ∧ (i - base) / block_width < nb)
    (hinv : ∀ t : Nat, loaded[t]? = some true → blocks[t]? = d._storage[base / block_width + t]?) :
    basic_bloom_filter.count_loop_blocked M d base (base / block_width) n ms blocks loaded
      = probe_bits d (M.outputs n ms) := by
  induction n generalizing ms blocks loaded with
  | zero => rfl
  | succ n ih =>
    simp only [mixer.outputs, List.forall_mem_cons] at hreg
    obtain ⟨⟨h1, h2, h3⟩, hrest⟩ := hreg
    have hs := size_sub_eq _ _ h1 h2
    obtain ⟨hdiv, hmod⟩ := region_div_mod base _ hbase h1
    have hb3 : (M.call ms).1 - base < blocks.length * block_width ∨ True := Or.inr trivial
    have ht1 : ((M.call ms).1 - base) / block_width < blocks.length := by omega
    have ht2 : ((M.call ms).1 - base) / block_width < loaded.length := by omega
    simp only [basic_bloom_filter.count_loop_blocked, mixer.outputs, probe_bits, width_eq, hs,
      List.getElem?_eq_getElem ht1, List.getElem?_eq_getElem ht2, basic_storage.load, hdiv, hmod]
    cases hl : loaded[((M.call ms).1 - base) / block_width] with
    | true =>
      have hc := hinv _ (by rw [List.getElem?_eq_getElem ht2, hl])
      rw [List.getElem?_eq_getElem ht1] at hc
      simp only [if_true, ← hc]
      split
      · rfl
      · exact ih _ _ _ hlen1 hlen2 hrest hinv
    | false =>
      simp only [Bool.false_eq_true, if_false]
      cases hld : d._storage[base / block_width + ((M.call ms).1 - base) / block_width]? with
      | none => rfl
      | some b =>
        simp only
        split
        · rfl
        · apply ih
          · simpa using hlen1
          · simpa using hlen2
          · exact hrest
          · intro t ht
            rw [List.getElem?_set] at ht ⊢
            by_cases htt : ((M.call ms).1 - base) / block_width = t
            · subst htt
              simp [ht1, hld]
            · simp only [htt, if_false] at ht ⊢
              exact hinv t ht

theorem blocked_mask_eq_probe_mask (base : Nat) (is : List Nat) (hbase : block_width ∣ base)
    (hreg : ∀ i ∈ is, base ≤ i ∧ i < size_mod) (k : Nat) :
    blocked_mask base is k = probe_mask is k := by
  induction is with
  | nil => simp [blocked_mask, probe_mask]
  | cons i is ih =>
    simp only [List.forall_mem_cons] at hreg
    obtain ⟨⟨h1, h2⟩, hrest⟩ := hreg
    have ih2 := ih hrest
    obtain ⟨hdiv, hmod⟩ := region_div_mod base i hbase h1
    have hs := size_sub_eq i base h1 h2
    unfold blocked_mask at ih2 ⊢
    simp only [List.map_cons, probe_mask, hs]
    by_cases hk : base / block_width ≤ k
    · simp only [hk, if_true] at ih2 ⊢
      rw [ih2, hdiv, hmod]
      have hiff : ((i - base) / block_width = k - base / block_width) ↔
          (base / block_width + (i - base) / block_width = k) := by omega
      simp only [hiff]
    · simp only [hk, if_false] at ih2 ⊢
      have hge : base / block_width ≤ i / block_width := by
        rw [hdiv]
        exact Nat.le_add_right _ _
      have hne : ¬ i / block_width = k := fun heq => hk (heq ▸ hge)
      simp [hne, ← ih2]

/-! ## Lemmas: the filter operations -/

namespace basic_bloom_filter

variable {α σ : Type}

theorem grows_refl (f : basic_bloom_filter) : grows f f :=
  ⟨⟨rfl, rfl, rfl⟩, fun _ h => h⟩

theorem grows_trans {f g h : basic_bloom_filter} (h1 : grows f g) (h2 : grows g h) : grows f h :=
  ⟨⟨h2.1.1.trans h1.1.1, h2.1.2.1.trans h1.1.2.1, h2.1.2.2.trans h1.1.2.2⟩,
    fun j hj => h2.2 j (h1.2 j hj)⟩

theorem probes_congr (M : mixer α σ) {f g : basic_bloom_filter} (h : same_shape f g) (x : α) :
    probes M g x = probes M f x := by
  unfold probes basic_storage.bit_count
  rw [h.1, h.2.1]

theorem insert_unblocked_eq (M : mixer α σ) (hM : M.block_bits = 0) (f : basic_bloom_filter) (x : α) :
    insert M f x = ((set_bits (probes M f x) f._data).1,
      { f with _data := (set_bits (probes M f x) f._data).2 }) := by
  simp only [insert, hM, if_true, insert_impl_unblocked, insert_loop_eq_set_bits, probes]

theorem count_unblocked_eq (M : mixer α σ) (hM : M.block_bits = 0) (f : basic_bloom_filter) (x : α) :
    count M f x = (probe_bits f._data (probes M f x), f) := by
  simp only [count, hM, if_true, count_impl_unblocked, count_loop_eq_probe_bits, probes]

theorem insert_mask_congr (M : mixer α σ) {f g : basic_bloom_filter} (h : same_shape f g) (x : α) :
    insert_mask M g x = insert_mask M f x := by
  unfold insert_mask
  rw [probes_congr M h, h.2.2]
  unfold basic_storage.bit_count
  rw [h.2.1]

theorem insert_params (M : mixer α σ) (f : basic_bloom_filter) (x : α) :
    (insert M f x).2._params = f._params := by
  unfold insert
  simp only
  split
  · rfl
  · exact insert_impl_blocked_params M f _

theorem insert_or_update (M : mixer α σ) (f : basic_bloom_filter) (x : α) :
    or_update f._data (insert M f x).2._data (insert_mask M f x) := by
  by_cases hM : M.block_bits = 0
  · rw [insert_unblocked_eq M hM]
    simp only [insert_mask, hM, if_true]
    exact set_bits_or_update _ _
  · simp only [insert, insert_mask, hM, if_false, probes]
    exact insert_impl_blocked_or_update M f _

theorem insert_same_shape (M : mixer α σ) (f : basic_bloom_filter) (x : α) :
    same_shape f (insert M f x).2 :=
  ⟨insert_params M f x, (insert_or_update M f x).1, (insert_or_update M f x).2.1⟩

theorem insert_grows (M : mixer α σ) (f : basic_bloom_filter) (x : α) :
    grows f (insert M f x).2 :=
  ⟨insert_same_shape M f x, fun j hj => or_update_mono (insert_or_update M f x) j hj⟩

theorem insert_all_grows (M : mixer α σ) (f : basic_bloom_filter) (xs : List α) :
    grows f (insert_all M f xs).2 := by
  induction xs generalizing f with
  | nil => exact grows_refl f
  | cons x xs ih =>
    unfold insert_all
    have hg := insert_grows M f x
    rcases hins : insert M f x with ⟨r, f1⟩
    rw [hins] at hg
    cases r with
    | ok u => exact grows_trans hg (ih f1)
    | error e => exact hg

theorem insert_all_append (M : mixer α σ) (f : basic_bloom_filter) (xs ys : List α) :
    insert_all M f (xs ++ ys) =
      match insert_all M f xs with
      | (.ok _, f') => insert_all M f' ys
      | (.error e, f') => (.error e, f') := by
  induction xs generalizing f with
  | nil => rfl
  | cons x xs ih =>
    simp only [List.cons_append, insert_all]
    rcases insert M f x with ⟨r, f1⟩
    cases r with
    | ok u => exact ih f1
    | error e => rfl

theorem clear_covers (f : basic_bloom_filter) (h : f._data.covers) : (clear f)._data.covers := by
  simpa [clear, basic_storage.clear, basic_storage.covers] using h

theorem construct_filter_covers (p : bloom_filter_params) (h : p.bit_count + block_width ≤ size_mod) :
    (construct p)._data.covers :=
  clear_covers _ (construct_covers p.bit_count h)

theorem covers_of_same_shape {f g : basic_bloom_filter} (h : same_shape f g) (hc : f._data.covers) :
    g._data.covers := by
  unfold basic_storage.covers at *
  rw [h.2.1, h.2.2]
  exact hc

theorem insert_ok_sets_probes_unblocked (M : mixer α σ) (hM : M.block_bits = 0)
    (f : basic_bloom_filter) (x : α) (hok : (insert M f x).1 = .ok ()) :
    ∀ i ∈ probes M f x, (insert M f x).2._data.test_bit i = true := by
  rw [insert_unblocked_eq M hM] at hok ⊢
  simp only at hok ⊢
  have hr := (set_bits_ok_iff _ _).1 hok
  intro i hi
  rw [set_bits_test_bit, in_range_part_eq_self _ _ hr]
  simp [hr i hi, hi]

theorem insert_ok_unblocked (M : mixer α σ) (hM : M.block_bits = 0) (f : basic_bloom_filter) (x : α)
    (hcov : f._data.covers) (hmix : ∀ i ∈ probes M f x, i < f._data.bit_count) :
    (insert M f x).1 = .ok () := by
  rw [insert_unblocked_eq M hM]
  exact (set_bits_ok_iff _ _).2 (fun i hi => covers_in_range _ hcov i (hmix i hi))

theorem insert_all_ok_unblocked (M : mixer α σ) (hM : M.block_bits = 0) (f : basic_bloom_filter)
    (hcov : f._data.covers) (hmix : ∀ y, ∀ i ∈ probes M f y, i < f._data.bit_count) (xs : List α) :
    (insert_all M f xs).1 = .ok () := by
  induction xs generalizing f with
  | nil => rfl
  | cons x xs ih =>
    unfold insert_all
    have hok := insert_ok_unblocked M hM f x hcov (hmix x)
    have hsh := insert_same_shape M f x
    rcases hins : insert M f x with ⟨r, f1⟩
    rw [hins] at hok hsh
    simp only at hok
    subst hok
    simp only
    apply ih f1 (covers_of_same_shape hsh hcov)
    intro y i hi
    rw [probes_congr M hsh] at hi
    have := hmix y i hi
    unfold basic_storage.bit_count at *
    rw [hsh.2.1]
    exact this

theorem count_one_of_bits_unblocked (M : mixer α σ) (hM : M.block_bits = 0)
    (f : basic_bloom_filter) (x : α) (h : ∀ i ∈ probes M f x, f._data.test_bit i = true) :
    (count M f x).1 = .ok 1 := by
  rw [count_unblocked_eq M hM]
  exact (probe_bits_eq_one_iff _ _).2 h

/-- The run `insert_all` over `xs ++ x :: ys` split at the call for `x`. -/
theorem insert_all_split (M : mixer α σ) (f f' : basic_bloom_filter) (xs ys : List α) (x : α)
    (hrun : insert_all M f (xs ++ x :: ys) = (.ok (), f')) :
    ∃ f1, same_shape f f1 ∧ (insert M f1 x).1 = .ok () ∧ grows (insert M f1 x).2 f' := by
  rw [insert_all_append] at hrun
  have hg1 := insert_all_grows M f xs
  rcases h1 : insert_all M f xs with ⟨r1, f1⟩
  rw [h1] at hrun hg1
  cases r1 with
  | error e => simp at hrun
  | ok u =>
    simp only [insert_all] at hrun
    refine ⟨f1, hg1.1, ?_⟩
    rcases h2 : insert M f1 x with ⟨r2, f2⟩
    rw [h2] at hrun
    cases r2 with
    | error e => simp at hrun
    | ok u2 =>
      simp only at hrun
      refine ⟨rfl, ?_⟩
      have hg2 := insert_all_grows M f2 ys
      rw [hrun] at hg2
      exact hg2

/-! ### The blocked path under the mixer contract -/

theorem blocked_contract_congr (M : mixer α σ) {f g : basic_bloom_filter} (h : same_shape f g)
    (x : α) (hc : blocked_contract M f x) : blocked_contract M g x := by
  unfold blocked_contract at *
  rw [probes_congr M h]
  unfold basic_storage.bit_count at *
  rw [h.2.1]
  exact hc

theorem contract_base (M : mixer α σ) (f : basic_bloom_filter) (x : α)
    (hc : blocked_contract M f x) :
    block_width ∣ M.base_offset (M.construct x f._data.bit_count) :=
  hc.2.1

theorem contract_inner (M : mixer α σ) (f : basic_bloom_filter) (x : α)
    (hsz : f._data.bit_count ≤ size_mod) (hc : blocked_contract M f x) :
    ∀ i ∈ probes M f x,
      M.base_offset (M.construct x f._data.bit_count) ≤ i ∧ i < size_mod ∧
      size_sub i (M.base_offset (M.construct x f._data.bit_count)) =
        i - M.base_offset (M.construct x f._data.bit_count) ∧
      (i - M.base_offset (M.construct x f._data.bit_count)) / block_width
        < storage_blocks_in_mixer_block M := by
  intro i hi
  obtain ⟨h1, h2, h3⟩ := hc.2.2 i hi
  have hlt : i < size_mod := by omega
  refine ⟨h1, hlt, size_sub_eq _ _ h1 hlt, ?_⟩
  unfold storage_blocks_in_mixer_block
  rw [width_eq_comm, Nat.div_lt_iff_lt_mul block_width_pos, Nat.div_mul_cancel hc.1]
  omega

theorem blocked_part_eq (M : mixer α σ) (f : basic_bloom_filter) (x : α)
    (hsz : f._data.bit_count ≤ size_mod) (hc : blocked_contract M f x) :
    blocked_part (storage_blocks_in_mixer_block M)
      (M.base_offset (M.construct x f._data.bit_count)) (probes M f x) = probes M f x := by
  apply if_pos
  intro i hi
  obtain ⟨_, _, hs, hlt⟩ := contract_inner M f x hsz hc i hi
  rw [hs]
  exact hlt

theorem insert_mask_blocked (M : mixer α σ) (hB : M.block_bits ≠ 0) (f : basic_bloom_filter) (x : α)
    (hsz : f._data.bit_count ≤ size_mod) (hc : blocked_contract M f x) :
    insert_mask M f x = probe_mask (probes M f x) := by
  funext k
  simp only [insert_mask, hB, if_false]
  rw [blocked_part_eq M f x hsz hc]
  apply blocked_mask_eq_probe_mask _ _ (contract_base M f x hc)
  intro i hi
  obtain ⟨h1, h2, _, _⟩ := contract_inner M f x hsz hc i hi
  exact ⟨h1, h2⟩

theorem count_blocked_eq (M : mixer α σ) (hB : M.block_bits ≠ 0) (f : basic_bloom_filter) (x : α)
    (hsz : f._data.bit_count ≤ size_mod) (hc : blocked_contract M f x) :
    (count M f x).1 = probe_bits f._data (probes M f x) := by
  simp only [count, hB, if_false, count_impl_blocked, width_eq_comm]
  apply count_loop_blocked_eq M f._data _ (storage_blocks_in_mixer_block M)
    (contract_base M f x hc)
  · simp
  · simp
  · intro i hi
    obtain ⟨h1, h2, _, h4⟩ := contract_inner M f x hsz hc i hi
    exact ⟨h1, h2, h4⟩
  · intro t ht
    rw [List.getElem?_replicate] at ht
    split at ht <;> simp at ht

theorem insert_accumulate_zero (M : mixer α σ) (base n nb : Nat) (ms : σ)
    (h : ∀ i ∈ M.outputs n ms, size_sub i base / block_width < nb) :
    ∃ blocks', insert_accumulate M base n ms (List.replicate nb 0) = .ok blocks' ∧
      blocks'.length = nb ∧
      ∀ t : Nat, blocks'.getD t 0 =
        probe_mask ((M.outputs n ms).map (fun i => size_sub i base)) t := by
  obtain ⟨blocks', he, hl, hb⟩ := insert_accumulate_ok M base n ms (List.replicate nb 0)
    (by simpa using h)
  refine ⟨blocks', he, by simpa using hl, fun t => ?_⟩
  rw [List.getD_eq_getElem?_getD, hb, List.getElem?_replicate]
  by_cases ht : t < nb
  · simp [ht]
  · simp only [ht, if_false, Option.map_none', Option.getD_none]
    symm
    apply probe_mask_eq_zero
    intro j hj
    simp only [List.mem_map] at hj
    obtain ⟨i, hi, rfl⟩ := hj
    have := h i hi
    omega

theorem insert_ok_iff_blocked (M : mixer α σ) (hB : M.block_bits ≠ 0) (f : basic_bloom_filter)
    (x : α) (hsz : f._data.bit_count ≤ size_mod) (hc : blocked_contract M f x) :
    (insert M f x).1 = .ok () ↔ ∀ i ∈ probes M f x, i / block_width < f._data._storage.length := by
  have hin := contract_inner M f x hsz hc
  have hbase := contract_base M f x hc
  obtain ⟨blocks', he, hl, hget⟩ := insert_accumulate_zero M
    (M.base_offset (M.construct x f._data.bit_count)) f._params.num_hashes
    (storage_blocks_in_mixer_block M) (M.construct x f._data.bit_count)
    (fun i hi => by
      obtain ⟨_, _, hs, hlt⟩ := hin i hi
      rw [hs]
      exact hlt)
  simp only [insert, hB, if_false, insert_impl_blocked, he, width_eq_comm]
  rw [insert_flush_ok_iff]
  simp only [hl, hget, Nat.add_zero]
  constructor
  · intro h i hi
    obtain ⟨h1, h2, hs, hlt⟩ := hin i hi
    obtain ⟨hdiv, _⟩ := region_div_mod _ i hbase h1
    rw [hdiv]
    apply h _ hlt
    intro hz
    have hbit := testBit_probe_mask_index
      ((probes M f x).map (fun i => size_sub i (M.base_offset (M.construct x f._data.bit_count))))
      (i - M.base_offset (M.construct x f._data.bit_count))
    have hmem : (i - M.base_offset (M.construct x f._data.bit_count)) ∈
        (probes M f x).map
          (fun i => size_sub i (M.base_offset (M.construct x f._data.bit_count))) :=
      List.mem_map.2 ⟨i, hi, hs⟩
    unfold probes at hbit hmem
    rw [hz, Nat.zero_testBit] at hbit
    simp [hmem] at hbit
  · intro h t _ hne
    by_contra hcon
    apply hne
    apply probe_mask_eq_zero
    intro j hj hjt
    simp only [List.mem_map] at hj
    obtain ⟨i, hi, rfl⟩ := hj
    obtain ⟨h1, h2, hs, hlt⟩ := hin i hi
    obtain ⟨hdiv, _⟩ := region_div_mod _ i hbase h1
    have := h i hi
    rw [hdiv, ← hs, hjt] at this
    exact hcon this

theorem insert_ok_sets_probes_blocked (M : mixer α σ) (hB : M.block_bits ≠ 0)
    (f : basic_bloom_filter) (x : α) (hsz : f._data.bit_count ≤ size_mod)
    (hc : blocked_contract M f x) (hok : (insert M f x).1 = .ok ()) :
    ∀ i ∈ probes M f x, (insert M f x).2._data.test_bit i = true := by
  have hr := (insert_ok_iff_blocked M hB f x hsz hc).1 hok
  intro i hi
  rw [or_update_test_bit (insert_or_update M f x), insert_mask_blocked M hB f x hsz hc,
    testBit_probe_mask_index]
  simp [hr i hi, hi]

theorem insert_ok_blocked (M : mixer α σ) (hB : M.block_bits ≠ 0) (f : basic_bloom_filter) (x : α)
    (hsz : f._data.bit_count ≤ size_mod) (hc : blocked_contract M f x) (hcov : f._data.covers) :
    (insert M f x).1 = .ok () :=
  (insert_ok_iff_blocked M hB f x hsz hc).2
    (fun i hi => covers_in_range _ hcov i (hc.2.2 i hi).2.2)

theorem insert_all_ok_blocked (M : mixer α σ) (hB : M.block_bits ≠ 0) (f : basic_bloom_filter)
    (hsz : f._data.bit_count ≤ size_mod) (hc : ∀ y, blocked_contract M f y)
    (hcov : f._data.covers) (xs : List α) : (insert_all M f xs).1 = .ok () := by
  induction xs generalizing f with
  | nil => rfl
  | cons x xs ih =>
    unfold insert_all
    have hok := insert_ok_blocked M hB f x hsz (hc x) hcov
    have hsh := insert_same_shape M f x
    rcases hins : insert M f x with ⟨r, f1⟩
    rw [hins] at hok hsh
    simp only at hok
    subst hok
    simp only
    apply ih f1 _ (fun y => blocked_contract_congr M hsh y (hc y)) (covers_of_same_shape hsh hcov)
    unfold basic_storage.bit_count at *
    rw [hsh.2.1]
    exact hsz

theorem count_one_of_bits_blocked (M : mixer α σ) (hB : M.block_bits ≠ 0)
    (f : basic_bloom_filter) (x : α) (hsz : f._data.bit_count ≤ size_mod)
    (hc : blocked_contract M f x) (h : ∀ i ∈ probes M f x, f._data.test_bit i = true) :
    (count M f x).1 = .ok 1 := by
  rw [count_blocked_eq M hB f x hsz hc]
  exact (probe_bits_eq_one_iff _ _).2 h

theorem bit_count_of_same_shape {f g : basic_bloom_filter} (h : same_shape f g) :
    g._data.bit_count = f._data.bit_count := h.2.1

theorem insert_insert (M : mixer α σ) (f : basic_bloom_filter) (x : α) :
    (insert M (insert M f x).2 x).2 = (insert M f x).2 := by
  have h1 := insert_or_update M f x
  have h2 := insert_or_update M (insert M f x).2 x
  rw [insert_mask_congr M (insert_same_shape M f x)] at h2
  have hd := or_update_idem h1 h2
  have hp := insert_params M (insert M f x).2 x
  cases hg : (insert M (insert M f x).2 x).2 with
  | mk d2 p2 =>
    cases hf : (insert M f x).2 with
    | mk d1 p1 =>
      rw [hg] at hd hp
      rw [hf] at hd hp
      simp only at hd hp
      rw [hd, hp]

theorem insert_times_fixed (M : mixer α σ) (f : basic_bloom_filter) (x : α) (n : Nat) :
    insert_times M (insert M f x).2 x n = (insert M f x).2 := by
  induction n with
  | zero => rfl
  | succ n ih =>
    rw [insert_times, insert_insert]
    exact ih

theorem count_eq_probe_bits (M : mixer α σ) (f : basic_bloom_filter) (x : α)
    (hsz : f._data.bit_count ≤ size_mod)
    (hc : mixer_contract M f._data.bit_count f._params.num_hashes x) :
    (count M f x).1 = probe_bits f._data (probes M f x) := by
  by_cases hM : M.block_bits = 0
  · rw [count_unblocked_eq M hM]
  · obtain ⟨h1, h2, h3⟩ := hc.2 hM
    exact count_blocked_eq M hM f x hsz
      ⟨h1, dvd_trans h1 h2, fun i hi => ⟨(h3 i hi).1, (h3 i hi).2, hc.1 i hi⟩⟩

theorem probe_bits_clear (d : basic_storage) (i : Nat) (is : List Nat)
    (hi : i / block_width < d._storage.length) : probe_bits d.clear (i :: is) = .ok 0 := by
  simp [probe_bits, basic_storage.load, basic_storage.clear, List.getElem?_replicate, hi]

theorem count_clear (M : mixer α σ) (f : basic_bloom_filter) (x : α)
    (hk : 0 < f._params.num_hashes) (hsz : f._data.bit_count ≤ size_mod)
    (hcov : f._data.covers)
    (hc : mixer_contract M f._data.bit_count f._params.num_hashes x) :
    (count M (clear f) x).1 = .ok 0 := by
  have hc2 : mixer_contract M (clear f)._data.bit_count (clear f)._params.num_hashes x := hc
  rw [count_eq_probe_bits M (clear f) x hsz hc2]
  have hp : probes M (clear f) x = probes M f x := rfl
  rw [hp]
  obtain ⟨n, hn⟩ := Nat.exists_eq_succ_of_ne_zero (Nat.pos_iff_ne_zero.1 hk)
  have hmem := hc.1
  unfold probes
  rw [hn] at hmem ⊢
  simp only [mixer.outputs] at hmem ⊢
  exact probe_bits_clear f._data _ _
    (covers_in_range _ hcov _ (hmem _ (List.mem_cons_self _ _)))

end basic_bloom_filter

/-! ## Lemmas: zero hashes -/

theorem insert_flush_zeros (bb idx n : Nat) (d : basic_storage) :
    basic_bloom_filter.insert_flush bb idx (List.replicate n 0) d = (.ok (), d) := by
  induction n generalizing idx with
  | zero => rfl
  | succ n ih =>
    simp only [List.replicate_succ, basic_bloom_filter.insert_flush, ne_eq, not_true_eq_false,
      if_false]
    exact ih (idx + 1)

/-! ## Lemmas: stream output -/

theorem log_two_pos : 0 < Real.log 2 := by
  have := Real.log_two_gt_d9
  linarith

theorem log_two_lt_one : Real.log 2 < 1 := by
  have := Real.log_two_lt_d9
  norm_num at this ⊢
  linarith

theorem ideal_bits_pos (p : ℝ) (n : Nat) (hp0 : 0 < p) (hp1 : p < 1) (hn : n ≠ 0) :
    0 < ideal_bits_of Real.log p n := by
  unfold ideal_bits_of
  have hl := Real.log_neg hp0 hp1
  have hn0 : (0 : ℝ) < n := Nat.cast_pos.2 (Nat.pos_of_ne_zero hn)
  have hd : 0 < (Real.log 2) ^ 2 := pow_pos log_two_pos 2
  apply div_pos _ hd
  nlinarith

theorem size_of_double_ok (x : ℝ) (h0 : 0 ≤ x) (h1 : x < (size_mod : ℝ)) :
    size_of_double x = .ok ⌊x⌋₊ := by
  unfold size_of_double
  rw [if_pos]
  exact ⟨by linarith, h1⟩

theorem size_of_double_big (x : ℝ) (h1 : (size_mod : ℝ) ≤ x) :
    size_of_double x = .error .undefined_behaviour := by
  unfold size_of_double
  rw [if_neg]
  intro h
  linarith [h.2]

theorem ideal_hashes_nonneg (m n : Nat) : 0 ≤ ideal_hashes_of Real.log m n := by
  unfold ideal_hashes_of
  have := log_two_pos
  positivity

theorem std_round_nonneg (y : ℝ) (hy : 0 ≤ y) :
    std_round y = ((⌊y + 1 / 2⌋₊ : Nat) : ℝ) := by
  unfold std_round
  rw [if_pos hy, natCast_floor_eq_intCast_floor (by linarith)]

theorem size_mod_cast : ((size_mod : Nat) : ℝ) = 18446744073709551616 := by
  norm_num [size_mod, size_bits]

theorem ideal_hashes_lt (m n : Nat) (hn : n ≠ 0) (hm : m < size_mod) :
    ideal_hashes_of Real.log m n + 1 / 2 < (size_mod : ℝ) := by
  have hn1 : (1 : ℝ) ≤ n := by exact_mod_cast Nat.pos_of_ne_zero hn
  have hm1 : (m : ℝ) + 1 ≤ (size_mod : ℝ) := by exact_mod_cast hm
  have hl := log_two_pos
  have hl1 := Real.log_two_lt_d9
  have hle : ideal_hashes_of Real.log m n ≤ Real.log 2 * m := by
    unfold ideal_hashes_of
    apply div_le_self _ hn1
    positivity
  have hm0 : (0 : ℝ) ≤ m := Nat.cast_nonneg m
  rw [size_mod_cast] at hm1 ⊢
  nlinarith

/-- The value of `bloom_filter_params::create_ideal` on a valid input whose quotient fits
`std::size_t`. -/
theorem create_ideal_value (p : ℝ) (n : Nat) (hp0 : 0 < p) (hp1 : p < 1) (hn : n ≠ 0)
    (hx : ideal_bits_of Real.log p n < (size_mod : ℝ)) :
    bloom_filter_params.create_ideal Real.log p n =
      .ok { bit_count := ⌊ideal_bits_of Real.log p n⌋₊,
            num_hashes := ⌊ideal_hashes_of Real.log ⌊ideal_bits_of Real.log p n⌋₊ n + 1 / 2⌋₊ } := by
  have hpos := ideal_bits_pos p n hp0 hp1 hn
  have hm : ⌊ideal_bits_of Real.log p n⌋₊ < size_mod := (Nat.floor_lt hpos.le).2 hx
  have hy := ideal_hashes_nonneg ⌊ideal_bits_of Real.log p n⌋₊ n
  have hk : size_of_double (std_round (ideal_hashes_of Real.log ⌊ideal_bits_of Real.log p n⌋₊ n))
      = .ok ⌊ideal_hashes_of Real.log ⌊ideal_bits_of Real.log p n⌋₊ n + 1 / 2⌋₊ := by
    rw [std_round_nonneg _ hy, size_of_double_ok _ (Nat.cast_nonneg _), Nat.floor_natCast]
    have h2 := ideal_hashes_lt _ n hn hm
    exact lt_of_le_of_lt (Nat.floor_le (by linarith)) h2
  have hb := size_of_double_ok _ hpos.le hx
  simp only [ideal_bits_of, ideal_hashes_of] at hb hk
  simp only [ideal_bits_of, ideal_hashes_of,
    bloom_filter_params.create_ideal, LEEK_ASSERT, hp0, hp1, hn, and_self, ne_eq,
    not_false_eq_true, decide_True, if_true, hb, hk]

theorem create_ideal_overflow (p : ℝ) (n : Nat) (hp0 : 0 < p) (hp1 : p < 1) (hn : n ≠ 0)
    (hx : (size_mod : ℝ) ≤ ideal_bits_of Real.log p n) :
    bloom_filter_params.create_ideal Real.log p n = .error .undefined_behaviour := by
  have hb := size_of_double_big _ hx
  simp only [ideal_bits_of] at hb
  simp only [bloom_filter_params.create_ideal, LEEK_ASSERT, hp0, hp1, hn, and_self, ne_eq,
    not_false_eq_true, decide_True, if_true, hb]

theorem create_ideal_invalid (p : ℝ) (n : Nat) (h : ¬ (0 < p ∧ p < 1) ∨ n = 0) :
    bloom_filter_params.create_ideal Real.log p n = .error .invalid_argument := by
  by_cases hp : 0 < p ∧ p < 1
  · have hn : n = 0 := h.resolve_left (not_not.2 hp)
    simp [bloom_filter_params.create_ideal, LEEK_ASSERT, hp, hn]
  · simp [bloom_filter_params.create_ideal, LEEK_ASSERT, hp]

theorem log_half : Real.log (1 / 2) = -Real.log 2 := by
  rw [one_div, Real.log_inv]

theorem log_quarter : Real.log (1 / 4) = -(2 * Real.log 2) := by
  have h4 : (1 / 4 : ℝ) = (2 ^ 2)⁻¹ := by norm_num
  rw [h4, Real.log_inv, Real.log_pow]
  norm_num

theorem ideal_bits_half : ideal_bits_of Real.log (1 / 2) 1 = 1 / Real.log 2 := by
  have hl := log_two_pos
  unfold ideal_bits_of
  rw [log_half]
  field_simp
  ring

theorem ideal_bits_quarter (n : Nat) :
    ideal_bits_of Real.log (1 / 4) n = 2 * (n : ℝ) / Real.log 2 := by
  have hl := log_two_pos
  unfold ideal_bits_of
  rw [log_quarter]
  field_simp
  ring

theorem inv_log_two_bounds : 1 < 1 / Real.log 2 ∧ 1 / Real.log 2 < 2 := by
  have hl := log_two_pos
  have h1 := Real.log_two_gt_d9
  have h2 := log_two_lt_one
  constructor
  · rw [lt_div_iff₀ hl]
    linarith
  · rw [div_lt_iff₀ hl]
    norm_num at h1
    linarith

theorem ideal_bits_three_quarters : ideal_bits_of Real.log (3 / 4) 1 < 1 ∧
    0 < ideal_bits_of Real.log (3 / 4) 1 := by
  have hl := log_two_pos
  have h1 := Real.log_two_gt_d9
  norm_num at h1
  have h43 : Real.log (4 / 3) ≤ 4 / 3 - 1 := Real.log_le_sub_one_of_pos (by norm_num)
  have hinv : Real.log (3 / 4) = -Real.log (4 / 3) := by
    have h : (3 / 4 : ℝ) = (4 / 3)⁻¹ := by norm_num
    rw [h, Real.log_inv]
  refine ⟨?_, ideal_bits_pos (3 / 4) 1 (by norm_num) (by norm_num) (by norm_num)⟩
  unfold ideal_bits_of
  rw [hinv, div_lt_one (pow_pos hl 2)]
  norm_num
  nlinarith

theorem create_ideal_half_one :
    bloom_filter_params.create_ideal Real.log (1 / 2) 1
      = .ok { bit_count := 1, num_hashes := 1 } := by
  obtain ⟨hb1, hb2⟩ := inv_log_two_bounds
  have hx : ideal_bits_of Real.log (1 / 2) 1 < (size_mod : ℝ) := by
    rw [ideal_bits_half, size_mod_cast]
    linarith
  have hm : ⌊ideal_bits_of Real.log (1 / 2) 1⌋₊ = 1 := by
    rw [ideal_bits_half, Nat.floor_eq_iff (by linarith)]
    constructor
    · push_cast
      linarith
    · push_cast
      linarith
  have hk : ⌊ideal_hashes_of Real.log 1 1 + 1 / 2⌋₊ = 1 := by
    have h1 := Real.log_two_gt_d9
    have h2 := log_two_lt_one
    norm_num at h1
    unfold ideal_hashes_of
    rw [Nat.floor_eq_iff (by norm_num; linarith)]
    norm_num
    constructor <;> linarith
  rw [create_ideal_value _ _ (by norm_num) (by norm_num) (by norm_num) hx, hm, hk]

theorem create_ideal_three_quarters_one :
    bloom_filter_params.create_ideal Real.log (3 / 4) 1
      = .ok { bit_count := 0, num_hashes := 0 } := by
  obtain ⟨hlt, hpos⟩ := ideal_bits_three_quarters
  have hx : ideal_bits_of Real.log (3 / 4) 1 < (size_mod : ℝ) := by
    rw [size_mod_cast]
    linarith
  have hm : ⌊ideal_bits_of Real.log (3 / 4) 1⌋₊ = 0 := Nat.floor_eq_zero.2 hlt
  have hk : ⌊ideal_hashes_of Real.log 0 1 + 1 / 2⌋₊ = 0 := by
    unfold ideal_hashes_of
    rw [Nat.floor_eq_zero]
    norm_num
  rw [create_ideal_value _ _ (by norm_num) (by norm_num) (by norm_num) hx, hm, hk]

theorem round_up_dvd (m B : Nat) (hB : 0 < B) :
    B ∣ m + (B - m % B) ∧ m + (B - m % B) ≤ m + B ∧ m ≤ m + (B - m % B) ∧
      (m % B ≠ 0 → m + (B - m % B) < m + B) := by
  have hr : m % B < B := Nat.mod_lt m hB
  refine ⟨?_, by omega, by omega, fun h => by omega⟩
  have hq : m + (B - m % B) = B * (m / B + 1) := by
    have := Nat.div_add_mod m B
    rw [Nat.mul_add, Nat.mul_one]
    omega
  rw [hq]
  exact Dvd.intro _ rfl

theorem create_ideal_quarter_wide :
    ∃ m k : Nat, 2 ^ 63 < m ∧ m < 2 ^ 64 ∧
      bloom_filter_params.create_ideal Real.log (1 / 4) (2 ^ 62)
        = .ok { bit_count := m, num_hashes := k } := by
  have hl := log_two_pos
  have h1 := Real.log_two_gt_d9
  have h2 := Real.log_two_lt_d9
  norm_num at h1 h2
  have hval : ideal_bits_of Real.log (1 / 4) (2 ^ 62) = 9223372036854775808 / Real.log 2 := by
    rw [ideal_bits_quarter]
    norm_num
  have hpos : 0 < ideal_bits_of Real.log (1 / 4) (2 ^ 62) := by
    rw [hval]
    positivity
  have hx : ideal_bits_of Real.log (1 / 4) (2 ^ 62) < (size_mod : ℝ) := by
    rw [hval, size_mod_cast, div_lt_iff₀ hl]
    linarith
  refine ⟨_, _, ?_, ?_, create_ideal_value _ _ (by norm_num) (by norm_num) (by norm_num) hx⟩
  · have hle : ((2 ^ 63 + 1 : Nat) : ℝ) ≤ ideal_bits_of Real.log (1 / 4) (2 ^ 62) := by
      rw [hval, le_div_iff₀ hl]
      push_cast
      nlinarith
    exact (Nat.le_floor_iff hpos.le).2 hle
  · have h64 : ((2 ^ 64 : Nat) : ℝ) = (size_mod : ℝ) := by norm_num [size_mod, size_bits]
    rw [Nat.floor_lt hpos.le, h64]
    exact hx

/-! ### The scenario `create_ideal(0.05, 1000)` -/

theorem log_five_bounds :
    16 / 7 * Real.log 2 < Real.log 5 ∧ Real.log 5 < 7 / 3 * Real.log 2 := by
  have hu : Real.log ((5 : ℝ) ^ 3) < Real.log ((2 : ℝ) ^ 7) :=
    Real.log_lt_log (by positivity) (by norm_num)
  have hd : Real.log ((2 : ℝ) ^ 16) < Real.log ((5 : ℝ) ^ 7) :=
    Real.log_lt_log (by positivity) (by norm_num)
  rw [Real.log_pow, Real.log_pow] at hu hd
  push_cast at hu hd
  constructor <;> linarith

theorem log_twentieth : Real.log 0.05 = -(2 * Real.log 2 + Real.log 5) := by
  have h : (0.05 : ℝ) = ((2 : ℝ) ^ 2 * 5)⁻¹ := by norm_num
  rw [h, Real.log_inv, Real.log_mul (by positivity) (by norm_num), Real.log_pow]
  push_cast
  ring

theorem ideal_bits_scenario :
    6182 ≤ ideal_bits_of Real.log 0.05 1000 ∧ ideal_bits_of Real.log 0.05 1000 < 6252 := by
  have hl := log_two_pos
  have h1 := Real.log_two_gt_d9
  have h2 := Real.log_two_lt_d9
  norm_num at h1 h2
  obtain ⟨h5l, h5u⟩ := log_five_bounds
  have hsq1 := mul_lt_mul_of_pos_right h2 hl
  have hsq2 := mul_lt_mul_of_pos_right h1 hl
  unfold ideal_bits_of
  rw [log_twentieth, le_div_iff₀ (pow_pos hl 2), div_lt_iff₀ (pow_pos hl 2)]
  push_cast
  constructor <;> nlinarith

theorem ideal_hashes_scenario (m : Nat) (h1 : 6182 ≤ m) (h2 : m ≤ 6251) :
    ⌊ideal_hashes_of Real.log m 1000 + 1 / 2⌋₊ = 4 := by
  have hl := log_two_pos
  have hg := Real.log_two_gt_d9
  have hu := Real.log_two_lt_d9
  norm_num at hg hu
  have hm1 : (6182 : ℝ) ≤ m := by exact_mod_cast h1
  have hm2 : (m : ℝ) ≤ 6251 := by exact_mod_cast h2
  have hy := ideal_hashes_nonneg m 1000
  rw [Nat.floor_eq_iff (by linarith)]
  unfold ideal_hashes_of
  push_cast
  constructor
  · rw [← sub_le_iff_le_add, le_div_iff₀ (by norm_num)]
    nlinarith
  · rw [← lt_sub_iff_add_lt, div_lt_iff₀ (by norm_num)]
    nlinarith

theorem create_ideal_scenario :
    ∃ m : Nat, 6182 ≤ m ∧ m ≤ 6251 ∧
      bloom_filter_params.create_ideal Real.log 0.05 1000
        = .ok { bit_count := m, num_hashes := 4 } := by
  obtain ⟨hb1, hb2⟩ := ideal_bits_scenario
  have hx : ideal_bits_of Real.log 0.05 1000 < (size_mod : ℝ) := by
    rw [size_mod_cast]
    linarith
  have hm1 : 6182 ≤ ⌊ideal_bits_of Real.log 0.05 1000⌋₊ :=
    (Nat.le_floor_iff (by linarith)).2 (by exact_mod_cast hb1)
  have hm2 : ⌊ideal_bits_of Real.log 0.05 1000⌋₊ < 6252 :=
    (Nat.floor_lt (by linarith)).2 (by exact_mod_cast hb2)
  refine ⟨_, hm1, by omega, ?_⟩
  rw [create_ideal_value _ _ (by norm_num) (by norm_num) (by norm_num) hx,
    ideal_hashes_scenario _ hm1 (by omega)]

theorem pow_bound_low : (6182 ^ 250) ^ 16 ≤ 2 * (6181 ^ 250) ^ 16 := by decide

theorem pow_bound_high : 100 * (6250 ^ 250) ^ 16 ≤ 58 * (6251 ^ 250) ^ 16 := by decide

theorem pow_bound_low_real : (1 / 2 : ℝ) ≤ (((6181 : ℝ) / 6182) ^ 250) ^ 16 := by
  have h := (Nat.cast_le (α := ℝ)).2 pow_bound_low
  simp only [Nat.cast_mul, Nat.cast_pow, Nat.cast_ofNat] at h
  have hB : (0 : ℝ) < ((6182 : ℝ) ^ 250) ^ 16 := by positivity
  rw [div_pow, div_pow]
  generalize ((6181 : ℝ) ^ 250) ^ 16 = A at h ⊢
  generalize ((6182 : ℝ) ^ 250) ^ 16 = B at h hB ⊢
  rw [le_div_iff₀ hB]
  linarith

theorem pow_bound_high_real : (((6250 : ℝ) / 6251) ^ 250) ^ 16 ≤ 58 / 100 := by
  have h := (Nat.cast_le (α := ℝ)).2 pow_bound_high
  simp only [Nat.cast_mul, Nat.cast_pow, Nat.cast_ofNat] at h
  have hB : (0 : ℝ) < ((6251 : ℝ) ^ 250) ^ 16 := by positivity
  rw [div_pow, div_pow]
  generalize ((6250 : ℝ) ^ 250) ^ 16 = A at h ⊢
  generalize ((6251 : ℝ) ^ 250) ^ 16 = B at h hB ⊢
  rw [div_le_iff₀ hB]
  linarith

theorem expected_fpr_scenario (m : Nat) (h1 : 6182 ≤ m) (h2 : m ≤ 6251) :
    |bloom_filter_params.expected_fpr { bit_count := m, num_hashes := 4 } 1000 - (0.05 : ℝ)|
      ≤ 0.02 := by
  have hm1 : (6182 : ℝ) ≤ m := by exact_mod_cast h1
  have hm2 : (m : ℝ) ≤ 6251 := by exact_mod_cast h2
  have hm0 : (0 : ℝ) < m := by linarith
  have hexp : size_mul 4 1000 = 250 * 16 := by decide
  have hlo : (6181 : ℝ) / 6182 ≤ 1 - 1 / (m : ℝ) := by
    rw [div_le_iff₀ (by norm_num), sub_mul, one_div, ← div_eq_inv_mul,
      le_sub_iff_add_le, ← le_sub_iff_add_le', div_le_iff₀ hm0]
    nlinarith
  have hhi : 1 - 1 / (m : ℝ) ≤ (6250 : ℝ) / 6251 := by
    rw [le_div_iff₀ (by norm_num), sub_mul, one_div, ← div_eq_inv_mul,
      sub_le_iff_le_add, ← sub_le_iff_le_add', le_div_iff₀ hm0]
    nlinarith
  have hbase0 : (0 : ℝ) ≤ 1 - 1 / (m : ℝ) := le_trans (by norm_num) hlo
  have hq1 : (1 / 2 : ℝ) ≤ (1 - 1 / (m : ℝ)) ^ (250 * 16) := by
    rw [pow_mul]
    exact le_trans pow_bound_low_real
      (pow_le_pow_left₀ (by positivity) (pow_le_pow_left₀ (by norm_num) hlo 250) 16)
  have hq2 : (1 - 1 / (m : ℝ)) ^ (250 * 16) ≤ 58 / 100 := by
    rw [pow_mul]
    exact le_trans
      (pow_le_pow_left₀ (by positivity) (pow_le_pow_left₀ hbase0 hhi 250) 16) pow_bound_high_real
  unfold bloom_filter_params.expected_fpr
  simp only [hexp]
  generalize (1 - 1 / (m : ℝ)) ^ (250 * 16) = q at hq1 hq2
  have ha : (42 / 100 : ℝ) ≤ 1 - q := by linarith
  have hb : 1 - q ≤ (1 / 2 : ℝ) := by linarith
  have hpl : (42 / 100 : ℝ) ^ 4 ≤ (1 - q) ^ 4 := pow_le_pow_left₀ (by norm_num) ha 4
  have hph : (1 - q) ^ 4 ≤ (1 / 2 : ℝ) ^ 4 := pow_le_pow_left₀ (by linarith) hb 4
  rw [abs_le]
  norm_num at hpl hph ⊢
  constructor <;> linarith

/-! ## Lemmas: `expected_fpr` -/

theorem expected_fpr_eq_formula (m k n : Nat) (h : k * n < size_mod) :
    bloom_filter_params.expected_fpr { bit_count := m, num_hashes := k } n
      = (1 - (1 - 1 / (m : ℝ)) ^ (k * n)) ^ k := by
  simp only [bloom_filter_params.expected_fpr, size_mul, Nat.mod_eq_of_lt h]

theorem size_mul_wraps : size_mul (2 ^ 32) (2 ^ 32) = 0 := by decide

/-! ## Lemmas: the blocked path refines the unblocked path -/

theorem or_update_unique {d e g : basic_storage} {m : Nat → Nat} (h1 : or_update d e m)
    (h2 : or_update d g m) : e = g := by
  apply basic_storage.ext_blocks (h1.1.trans h2.1.symm)
  intro k
  rw [h1.2.2, h2.2.2]

namespace basic_bloom_filter

variable {α σ : Type}

theorem insert_impl_unblocked_eq (M : mixer α σ) (f : basic_bloom_filter) (x : α) :
    insert_impl_unblocked M f (M.construct x f._data.bit_count)
      = ((set_bits (probes M f x) f._data).1,
          { f with _data := (set_bits (probes M f x) f._data).2 }) := by
  simp only [insert_impl_unblocked, insert_loop_eq_set_bits, probes]

theorem insert_blocked_eq (M : mixer α σ) (hB : M.block_bits ≠ 0) (f : basic_bloom_filter) (x : α) :
    insert M f x = insert_impl_blocked M f (M.construct x f._data.bit_count) := by
  simp only [basic_bloom_filter.insert, hB, if_false]

theorem probe_mask_outside (M : mixer α σ) (f : basic_bloom_filter) (x : α)
    (hsz : f._data.bit_count ≤ size_mod) (hc : blocked_contract M f x) (k : Nat)
    (hk : k < M.base_offset (M.construct x f._data.bit_count) / block_width ∨
      M.base_offset (M.construct x f._data.bit_count) / block_width
        + M.block_bits / block_width ≤ k) :
    probe_mask (probes M f x) k = 0 := by
  apply probe_mask_eq_zero
  intro i hi heq
  obtain ⟨h1, _, _, hlt⟩ := contract_inner M f x hsz hc i hi
  obtain ⟨hdiv, _⟩ := region_div_mod _ i (contract_base M f x hc) h1
  have hlt2 : (i - M.base_offset (M.construct x f._data.bit_count)) / block_width
      < M.block_bits / block_width := hlt
  rw [hdiv] at heq
  generalize M.base_offset (M.construct x f._data.bit_count) / block_width = bb at hk heq
  generalize (i - M.base_offset (M.construct x f._data.bit_count)) / block_width = t at hlt2 heq
  generalize M.block_bits / block_width = nb at hk hlt2
  omega

theorem insert_impl_refines (M : mixer α σ) (hB : M.block_bits ≠ 0) (f : basic_bloom_filter)
    (x : α) (hsz : f._data.bit_count ≤ size_mod) (hc : blocked_contract M f x)
    (hcov : f._data.covers) :
    insert_impl_blocked M f (M.construct x f._data.bit_count)
      = insert_impl_unblocked M f (M.construct x f._data.bit_count) := by
  have hr : ∀ i ∈ probes M f x, i / block_width < f._data._storage.length :=
    fun i hi => covers_in_range _ hcov i (hc.2.2 i hi).2.2
  have hu := insert_impl_unblocked_eq M f x
  have hok1 : (insert_impl_blocked M f (M.construct x f._data.bit_count)).1 = .ok () := by
    rw [← insert_blocked_eq M hB]
    exact insert_ok_blocked M hB f x hsz hc hcov
  have hok2 : (set_bits (probes M f x) f._data).1 = .ok () := (set_bits_ok_iff _ _).2 hr
  have hb := insert_impl_blocked_or_update M f (M.construct x f._data.bit_count)
  have hm := insert_mask_blocked M hB f x hsz hc
  simp only [insert_mask, hB, if_false] at hm
  have hb2 : or_update f._data (insert_impl_blocked M f (M.construct x f._data.bit_count)).2._data
      (probe_mask (probes M f x)) := by
    have := hb
    unfold probes at hm
    rw [hm] at this
    exact this
  have hs := set_bits_or_update (probes M f x) f._data
  rw [in_range_part_eq_self _ _ hr] at hs
  have hd := or_update_unique hb2 hs
  have hp := insert_impl_blocked_params M f (M.construct x f._data.bit_count)
  rw [hu]
  rcases hres : insert_impl_blocked M f (M.construct x f._data.bit_count) with ⟨r, g⟩
  rw [hres] at hok1 hd hp
  simp only at hok1 hd hp
  cases g
  simp only at hd hp
  rw [hok1, hok2, hd, hp]

theorem count_impl_refines (M : mixer α σ) (hB : M.block_bits ≠ 0) (f : basic_bloom_filter)
    (x : α) (hsz : f._data.bit_count ≤ size_mod) (hc : blocked_contract M f x) :
    count_impl_blocked M f (M.construct x f._data.bit_count)
      = count_impl_unblocked M f (M.construct x f._data.bit_count) := by
  have h := count_blocked_eq M hB f x hsz hc
  simp only [count, hB, if_false] at h
  rw [h]
  simp only [count_impl_unblocked, count_loop_eq_probe_bits, probes]

end basic_bloom_filter

/-! ## Lemmas: order of inserts and monotone queries -/

theorem or_update_trans {d e g : basic_storage} {m m' : Nat → Nat} (h1 : or_update d e m)
    (h2 : or_update e g m') : or_update d g (fun k => m k ||| m' k) := by
  refine ⟨h2.1.trans h1.1, h2.2.1.trans h1.2.1, fun k => ?_⟩
  rw [h2.2.2, h1.2.2]
  cases d._storage[k]? with
  | none => rfl
  | some b => simp [Nat.or_assoc]

theorem or_update_congr {d e : basic_storage} {m m' : Nat → Nat} (h : or_update d e m)
    (hm : ∀ k, m k = m' k) : or_update d e m' := by
  have : m = m' := funext hm
  rw [← this]
  exact h

theorem or_update_refl (d : basic_storage) : or_update d d (fun _ => 0) := by
  refine ⟨rfl, rfl, fun k => ?_⟩
  cases d._storage[k]? <;> simp

namespace basic_bloom_filter
variable {α σ : Type}

theorem filter_ext {f g : basic_bloom_filter} (hd : f._data = g._data)
    (hp : f._params = g._params) : f = g := by
  cases f; cases g
  simp only at hd hp
  rw [hd, hp]

theorem insert_insert_comm (M : mixer α σ) (f : basic_bloom_filter) (x y : α) :
    (insert M (insert M f x).2 y).2 = (insert M (insert M f y).2 x).2 := by
  have hx := insert_or_update M f x
  have hy := insert_or_update M f y
  have hxy := insert_or_update M (insert M f x).2 y
  have hyx := insert_or_update M (insert M f y).2 x
  rw [insert_mask_congr M (insert_same_shape M f x)] at hxy
  rw [insert_mask_congr M (insert_same_shape M f y)] at hyx
  have h1 := or_update_trans hx hxy
  have h2 := or_update_congr (or_update_trans hy hyx) (fun k => Nat.lor_comm _ _)
  apply filter_ext (or_update_unique h1 h2)
  rw [insert_params, insert_params, insert_params, insert_params]

theorem each_mask_congr (M : mixer α σ) {f g : basic_bloom_filter} (h : same_shape f g)
    (xs : List α) : each_mask M g xs = each_mask M f xs := by
  funext k
  induction xs with
  | nil => rfl
  | cons x xs ih => simp only [each_mask, insert_mask_congr M h, ih]

theorem insert_each_or_update (M : mixer α σ) (f : basic_bloom_filter) (xs : List α) :
    same_shape f (insert_each M f xs) ∧
      or_update f._data (insert_each M f xs)._data (each_mask M f xs) := by
  induction xs generalizing f with
  | nil => exact ⟨⟨rfl, rfl, rfl⟩, or_update_refl _⟩
  | cons x xs ih =>
    obtain ⟨hs, hu⟩ := ih (insert M f x).2
    have hs1 := insert_same_shape M f x
    rw [each_mask_congr M hs1] at hu
    refine ⟨⟨hs.1.trans hs1.1, hs.2.1.trans hs1.2.1, hs.2.2.trans hs1.2.2⟩, ?_⟩
    exact or_update_trans (insert_or_update M f x) hu

theorem testBit_each_mask (M : mixer α σ) (f : basic_bloom_filter) (xs : List α) (k r : Nat) :
    (each_mask M f xs k).testBit r = xs.any (fun x => (insert_mask M f x k).testBit r) := by
  induction xs with
  | nil => simp [each_mask]
  | cons x xs ih => rw [each_mask, Nat.testBit_or, ih, List.any_cons]

theorem each_mask_of_same_elements (M : mixer α σ) (f : basic_bloom_filter) (xs ys : List α)
    (h : ∀ z, z ∈ xs ↔ z ∈ ys) (k : Nat) : each_mask M f xs k = each_mask M f ys k := by
  apply Nat.eq_of_testBit_eq
  intro r
  rw [testBit_each_mask, testBit_each_mask, Bool.eq_iff_iff, List.any_eq_true, List.any_eq_true]
  constructor
  · rintro ⟨z, hz, hb⟩
    exact ⟨z, (h z).1 hz, hb⟩
  · rintro ⟨z, hz, hb⟩
    exact ⟨z, (h z).2 hz, hb⟩

theorem insert_each_of_same_elements (M : mixer α σ) (f : basic_bloom_filter) (xs ys : List α)
    (h : ∀ z, z ∈ xs ↔ z ∈ ys) : insert_each M f xs = insert_each M f ys := by
  obtain ⟨hs1, hu1⟩ := insert_each_or_update M f xs
  obtain ⟨hs2, hu2⟩ := insert_each_or_update M f ys
  apply filter_ext
  · exact or_update_unique hu1
      (or_update_congr hu2 (fun k => (each_mask_of_same_elements M f xs ys h k).symm))
  · rw [hs1.1, hs2.1]

theorem insert_all_eq_insert_each (M : mixer α σ) (f f' : basic_bloom_filter) (xs : List α)
    (h : insert_all M f xs = (.ok (), f')) : f' = insert_each M f xs := by
  induction xs generalizing f with
  | nil =>
    simp only [insert_all, Prod.mk.injEq, true_and] at h
    exact h.symm
  | cons x xs ih =>
    simp only [insert_all] at h
    rcases hi : insert M f x with ⟨r, f1⟩
    rw [hi] at h
    cases r with
    | error e => simp at h
    | ok u =>
      simp only at h
      have := ih f1 h
      rw [this, insert_each, hi]

end basic_bloom_filter

theorem or_update_sub {d e : basic_storage} {m : Nat → Nat} (h : or_update d e m) (k b : Nat)
    (hb : d._storage[k]? = some b) :
    ∃ b' : Nat, e._storage[k]? = some b' ∧
      ∀ r : Nat, b.testBit r = true → b'.testBit r = true := by
  refine ⟨b ||| m k, by rw [h.2.2, hb]; rfl, fun r hr => ?_⟩
  rw [Nat.testBit_or, hr]
  rfl

theorem test_passes (b b' k : Nat)
    (hs : ∀ r : Nat, b.testBit r = true → b'.testBit r = true)
    (h : ¬ b &&& (1 <<< k) = 0) : ¬ b' &&& (1 <<< k) = 0 := by
  rw [and_one_shiftLeft_eq_zero_iff] at h ⊢
  have hb : b.testBit k = true := by simpa using h
  simp [hs k hb]

theorem count_loop_blocked_mono {α σ : Type} (M : mixer α σ) (d d' : basic_storage)
    (base bb : Nat)
    (hd : ∀ k b : Nat, d._storage[k]? = some b →
      ∃ b' : Nat, d'._storage[k]? = some b' ∧
        ∀ r : Nat, b.testBit r = true → b'.testBit r = true)
    (n : Nat) (ms : σ) (blocks blocks' : List Nat) (loaded : List Bool)
    (hlen : blocks'.length = blocks.length)
    (hc : ∀ t b b' : Nat, loaded[t]? = some true → blocks[t]? = some b →
      blocks'[t]? = some b' → ∀ r : Nat, b.testBit r = true → b'.testBit r = true)
    (h : basic_bloom_filter.count_loop_blocked M d base bb n ms blocks loaded = .ok 1) :
    basic_bloom_filter.count_loop_blocked M d' base bb n ms blocks' loaded = .ok 1 := by
  induction n generalizing ms blocks blocks' loaded with
  | zero => rfl
  | succ n ih =>
    simp only [basic_bloom_filter.count_loop_blocked, width_eq] at h ⊢
    generalize size_sub (M.call ms).1 base / block_width = idx at h ⊢
    by_cases h1 : idx < loaded.length
    · by_cases h2 : idx < blocks.length
      · have h2' : idx < blocks'.length := by omega
        rw [List.getElem?_eq_getElem h1, List.getElem?_eq_getElem h2] at h
        rw [List.getElem?_eq_getElem h1, List.getElem?_eq_getElem h2']
        simp only at h ⊢
        cases hl : loaded[idx] with
        | true =>
          simp only [hl, if_true] at h ⊢
          by_cases hz : blocks[idx] &&& (1 <<< (size_sub (M.call ms).1 base % block_width)) = 0
          · simp [hz] at h
          · have hs := hc idx blocks[idx] blocks'[idx]
              (by rw [List.getElem?_eq_getElem h1, hl]) (List.getElem?_eq_getElem h2)
              (List.getElem?_eq_getElem h2')
            simp only [hz, if_false] at h
            simp only [test_passes _ _ _ hs hz, if_false]
            exact ih _ _ _ _ hlen hc h
        | false =>
          simp only [hl, Bool.false_eq_true, if_false, basic_storage.load] at h ⊢
          cases hb : d._storage[bb + idx]? with
          | none => simp [hb] at h
          | some b =>
            obtain ⟨b', hb', hs⟩ := hd _ _ hb
            simp only [hb] at h
            simp only [hb']
            by_cases hz : b &&& (1 <<< (size_sub (M.call ms).1 base % block_width)) = 0
            · simp [hz] at h
            · simp only [hz, if_false] at h
              simp only [test_passes _ _ _ hs hz, if_false]
              apply ih _ _ _ _ (by simpa using hlen) _ h
              intro t b1 b1' ht hb1 hb1'
              rw [List.getElem?_set] at ht hb1 hb1'
              by_cases hti : idx = t
              · subst hti
                simp only [if_true, h2, h2'] at hb1 hb1'
                cases hb1
                cases hb1'
                exact hs
              · simp only [hti, if_false] at ht hb1 hb1'
                exact hc t b1 b1' ht hb1 hb1'
      · rw [List.getElem?_eq_getElem h1, List.getElem?_eq_none (Nat.le_of_not_lt h2)] at h
        simp at h
    · rw [List.getElem?_eq_none (Nat.le_of_not_lt h1)] at h
      simp at h

namespace basic_bloom_filter
variable {α σ : Type}

theorem count_insert_mono (M : mixer α σ) (f : basic_bloom_filter) (x y : α)
    (h : (count M f y).1 = .ok 1) : (count M (insert M f x).2 y).1 = .ok 1 := by
  have hs := insert_same_shape M f x
  have hg := insert_grows M f x
  by_cases hM : M.block_bits = 0
  · rw [count_unblocked_eq M hM] at h ⊢
    simp only at h ⊢
    rw [probe_bits_eq_one_iff] at h ⊢
    intro i hi
    rw [probes_congr M hs] at hi
    exact hg.2 i (h i hi)
  · have hbc : (insert M f x).2._data.bit_count = f._data.bit_count := hs.2.1
    simp only [count, hM, if_false, count_impl_blocked] at h ⊢
    rw [hbc, hs.1]
    exact count_loop_blocked_mono M f._data (insert M f x).2._data _ _
      (fun k b hb => or_update_sub (insert_or_update M f x) k b hb) _ _ _ _ _ rfl
      (fun t b b' _ hb hb' r hr => by
        rw [hb] at hb'
        cases hb'
        exact hr) h

theorem count_insert_each_mono (M : mixer α σ) (f : basic_bloom_filter) (xs : List α) (y : α)
    (h : (count M f y).1 = .ok 1) : (count M (insert_each M f xs) y).1 = .ok 1 := by
  induction xs generalizing f with
  | nil => exact h
  | cons x xs ih => exact ih _ (count_insert_mono M f x y h)

end basic_bloom_filter

/-! ## Lemmas: `create_ideal` over the arithmetic of the platform -/

theorem double_between_iff {K : Type} [LinearOrderedField K] (p : double K) :
    (double.lt (.finite 0) p && double.lt p (.finite 1)) = true ↔
      ∃ v, p = .finite v ∧ 0 < v ∧ v < 1 := by
  cases p with
  | finite x =>
    simp only [double.lt, Bool.and_eq_true, decide_eq_true_eq]
    constructor
    · intro h
      exact ⟨x, rfl, h⟩
    · rintro ⟨v, hv, h⟩
      cases hv
      exact h
  | pos_inf => simp [double.lt]
  | neg_inf => simp [double.lt]
  | nan => simp [double.lt]

theorem create_ideal_fp_value {K : Type} [LinearOrderedField K] [FloorRing K]
    (A : double_arith K) (p : double K) (n : Nat)
    (hp : ∃ v, p = .finite v ∧ 0 < v ∧ v < 1) (hn : n ≠ 0) :
    bloom_filter_params.create_ideal_fp A p n =
      .ok { bit_count := A.to_size (A.ideal_bits p n),
            num_hashes := A.to_size
              (double.round (A.ideal_hashes (A.to_size (A.ideal_bits p n)) n)) } := by
  have hb := (double_between_iff p).2 hp
  simp only [bloom_filter_params.create_ideal_fp, LEEK_ASSERT, hb, hn, ne_eq, not_false_eq_true,
    decide_True, if_true, double_arith.ideal_bits, double_arith.ideal_hashes]

theorem create_ideal_fp_invalid {K : Type} [LinearOrderedField K] [FloorRing K]
    (A : double_arith K) (p : double K) (n : Nat)
    (h : (¬ ∃ v, p = .finite v ∧ 0 < v ∧ v < 1) ∨ n = 0) :
    bloom_filter_params.create_ideal_fp A p n = .error .invalid_argument := by
  by_cases hp : (double.lt (.finite 0) p && double.lt p (.finite 1)) = true
  · have hn : n = 0 := h.resolve_left (not_not.2 ((double_between_iff p).1 hp))
    simp [bloom_filter_params.create_ideal_fp, LEEK_ASSERT, hp, hn]
  · simp [bloom_filter_params.create_ideal_fp, LEEK_ASSERT, hp]

theorem to_size_finite {K : Type} [LinearOrderedField K] [FloorRing K] (A : double_arith K)
    (x : K) (h0 : -1 < x) (h1 : x < (size_mod : K)) :
    A.to_size (.finite x) = ⌊x⌋₊ := by
  simp only [double_arith.to_size]
  rw [if_pos ⟨h0, h1⟩]

theorem exact_ideal_bits {K : Type} [LinearOrderedField K] (log : K → K) (p : K) (n : Nat)
    (hp : 0 < p) (hl : log 2 ≠ 0) :
    (exact_arith log).ideal_bits (.finite p) n = .finite (ideal_bits_of log p n) := by
  have h2 : (0 : K) < 2 := by norm_num
  have hd : (log 2) ^ 2 ≠ 0 := pow_ne_zero 2 hl
  simp only [double_arith.ideal_bits, exact_arith, double.neg, if_pos hp, if_pos h2, if_true,
    if_neg hd, ideal_bits_of]

theorem exact_ideal_hashes {K : Type} [LinearOrderedField K] (log : K → K) (m n : Nat)
    (hn : n ≠ 0) :
    (exact_arith log).ideal_hashes m n = .finite (ideal_hashes_of log m n) := by
  have h2 : (0 : K) < 2 := by norm_num
  have hd : (n : K) ≠ 0 := Nat.cast_ne_zero.2 hn
  simp only [double_arith.ideal_hashes, exact_arith, if_pos h2, if_neg hd, ideal_hashes_of]

/-- The parameter model with exact arithmetic is the model over the arithmetic `exact_arith`:
what the former returns, the latter returns. -/
theorem create_ideal_fp_exact {K : Type} [LinearOrderedField K] [FloorRing K] (log : K → K)
    (hl : log 2 ≠ 0) (p : K) (n : Nat) (params : bloom_filter_params)
    (h : bloom_filter_params.create_ideal log p n = .ok params) :
    bloom_filter_params.create_ideal_fp (exact_arith log) (.finite p) n = .ok params := by
  by_cases hp : 0 < p ∧ p < 1
  swap
  · simp [bloom_filter_params.create_ideal, LEEK_ASSERT, hp] at h
  by_cases hn : n = 0
  · simp [bloom_filter_params.create_ideal, LEEK_ASSERT, hp, hn] at h
  rw [create_ideal_fp_value _ _ _ ⟨p, rfl, hp⟩ hn, exact_ideal_bits log p n hp.1 hl]
  simp only [bloom_filter_params.create_ideal, LEEK_ASSERT, hp, hn, and_self, ne_eq,
    not_false_eq_true, decide_True, if_true] at h
  by_cases hb : -1 < ideal_bits_of log p n ∧ ideal_bits_of log p n < (size_mod : K)
  swap
  · have hb2 := hb
    simp only [ideal_bits_of] at hb2
    simp only [size_of_double, if_neg hb2] at h
    cases h
  rw [to_size_finite _ _ hb.1 hb.2, exact_ideal_hashes log _ n hn]
  have hb2 := hb
  simp only [ideal_bits_of] at hb2
  simp only [size_of_double, if_pos hb2] at h
  by_cases hk : -1 < std_round (ideal_hashes_of log ⌊ideal_bits_of log p n⌋₊ n) ∧
      std_round (ideal_hashes_of log ⌊ideal_bits_of log p n⌋₊ n) < (size_mod : K)
  swap
  · have hk2 := hk
    simp only [ideal_bits_of, ideal_hashes_of] at hk2
    simp only [if_neg hk2] at h
    cases h
  have hk2 := hk
  simp only [ideal_bits_of, ideal_hashes_of] at hk2
  simp only [if_pos hk2] at h
  simp only [double.round]
  rw [to_size_finite _ _ hk.1 hk.2]
  simp only [ideal_bits_of, ideal_hashes_of]
  exact h

/-! ## The filter contract -/

open basic_bloom_filter

/-- No false negatives on the unblocked path, for the bit counts at which `block_count`
does not wrap around.  For a mixer with `block_bits = 0` whose
first `num_hashes` indices for every element are below `bit_count`, and the filter built by
`construct(params)`: whenever the calls `insert` for `xs`, then `x`, then `ys` all return, the
following `count(x)` returns 1; and the calls all return whenever `bit_count + block_width`
does not exceed the range of `std::size_t`. -/
theorem no_false_negatives_unblocked {α σ : Type} (M : mixer α σ) (hM : M.block_bits = 0)
    (p : bloom_filter_params) (xs ys : List α) (x : α)
    (hmix : ∀ y, ∀ i ∈ M.outputs p.num_hashes (M.construct y p.bit_count), i < p.bit_count) :
    (∀ f', insert_all M (construct p) (xs ++ x :: ys) = (.ok (), f') → (count M f' x).1 = .ok 1) ∧
    (p.bit_count + block_width ≤ size_mod →
      ∃ f', insert_all M (construct p) (xs ++ x :: ys) = (.ok (), f')) := by
  constructor
  · intro f' hrun
    obtain ⟨f1, hs1, hok, hg⟩ := insert_all_split M _ f' xs ys x hrun
    apply count_one_of_bits_unblocked M hM
    intro i hi
    have hs : same_shape f1 f' :=
      ⟨hg.1.1.trans (insert_params M f1 x), hg.1.2.1.trans (insert_same_shape M f1 x).2.1,
        hg.1.2.2.trans (insert_same_shape M f1 x).2.2⟩
    rw [probes_congr M hs] at hi
    exact hg.2 i (insert_ok_sets_probes_unblocked M hM f1 x hok i hi)
  · intro hw
    have hok := insert_all_ok_unblocked M hM (construct p) (construct_filter_covers p hw)
      (fun y i hi => hmix y i hi) (xs ++ x :: ys)
    exact ⟨(insert_all M (construct p) (xs ++ x :: ys)).2, Prod.ext hok rfl⟩

/-- An instance of `no_false_negatives_unblocked`: the filter of 100 bits and 3 hashes, after `insert` of 1, 2, 5 and 9,
answers `count(5)` with 1. -/
theorem no_false_negatives_unblocked_witness :
    test_mixer.block_bits = 0 ∧
    (basic_bloom_filter.count test_mixer
      (basic_bloom_filter.insert_all test_mixer (basic_bloom_filter.construct ⟨100, 3⟩)
        [1, 2, 5, 9]).2 5).1 = .ok 1 :=
  ⟨rfl, (no_false_negatives_unblocked test_mixer rfl ⟨100, 3⟩ [1, 2] [9] 5
    (by
      intro y i hi
      show i < 100
      simp only [mixer.outputs, test_mixer, List.mem_cons, List.mem_nil_iff, or_false] at hi
      omega)).1 _ (by decide)⟩

/-- No false negatives on the blocked path, for a storage that holds its `bit_count` bits.
For a mixer with `block_bits = B > 0`, `B` a
multiple of the block width, whose region start for every element is a multiple of `B` and
whose first `num_hashes` indices lie in the region and below `bit_count`: whenever `insert(x)`
and the further calls `insert` for `ys` all return on a filter, the following `count(x)`
returns 1; and the calls all return whenever the storage holds at least `bit_count` bits. -/
theorem no_false_negatives_blocked {α σ : Type} (M : mixer α σ) (hB : 0 < M.block_bits)
    (hW : block_width ∣ M.block_bits) (f : basic_bloom_filter) (x : α) (ys : List α)
    (hsz : f._data.bit_count ≤ size_mod)
    (hbase : ∀ y, M.block_bits ∣ M.base_offset (M.construct y f._data.bit_count))
    (hmix : ∀ y, ∀ i ∈ M.outputs f._params.num_hashes (M.construct y f._data.bit_count),
      M.base_offset (M.construct y f._data.bit_count) ≤ i ∧
      i < M.base_offset (M.construct y f._data.bit_count) + M.block_bits ∧
      i < f._data.bit_count) :
    (∀ f', insert_all M f (x :: ys) = (.ok (), f') → (count M f' x).1 = .ok 1) ∧
    (f._data.bit_count ≤ block_width * f._data.block_count →
      ∃ f', insert_all M f (x :: ys) = (.ok (), f')) := by
  have hB0 : M.block_bits ≠ 0 := Nat.pos_iff_ne_zero.1 hB
  have hc : ∀ y, blocked_contract M f y := fun y => ⟨hW, dvd_trans hW (hbase y), hmix y⟩
  constructor
  · intro f' hrun
    obtain ⟨f1, hs1, hok, hg⟩ := insert_all_split M f f' [] ys x hrun
    have hs : same_shape f1 f' :=
      ⟨hg.1.1.trans (insert_params M f1 x), hg.1.2.1.trans (insert_same_shape M f1 x).2.1,
        hg.1.2.2.trans (insert_same_shape M f1 x).2.2⟩
    have hsz1 : f1._data.bit_count ≤ size_mod := by
      rw [bit_count_of_same_shape hs1]
      exact hsz
    have hc1 := blocked_contract_congr M hs1 x (hc x)
    have hsz2 : f'._data.bit_count ≤ size_mod := by
      rw [bit_count_of_same_shape hs]
      exact hsz1
    apply count_one_of_bits_blocked M hB0 f' x hsz2 (blocked_contract_congr M hs x hc1)
    intro i hi
    rw [probes_congr M hs] at hi
    exact hg.2 i (insert_ok_sets_probes_blocked M hB0 f1 x hsz1 hc1 hok i hi)
  · intro hcov
    have hok := insert_all_ok_blocked M hB0 f hsz hc hcov (x :: ys)
    exact ⟨(insert_all M f (x :: ys)).2, Prod.ext hok rfl⟩

/-- An instance of `no_false_negatives_blocked`: with regions of 128 bits, the filter of 256 bits and 3 hashes, after
`insert` of 5, 70 and 9, answers `count(5)` with 1. -/
theorem no_false_negatives_blocked_witness :
    0 < test_mixer_blocked.block_bits ∧ block_width ∣ test_mixer_blocked.block_bits ∧
    (count test_mixer_blocked
      (insert_all test_mixer_blocked (construct ⟨256, 3⟩) [5, 70, 9]).2 5).1 = .ok 1 :=
  ⟨by decide, by decide,
    (no_false_negatives_blocked test_mixer_blocked (by decide) (by decide) (construct ⟨256, 3⟩) 5
      [70, 9] (by decide)
      (by
        intro y
        show 128 ∣ (y % (256 / 128)) * 128
        exact Dvd.intro_left _ rfl)
      (by
        intro y i hi
        show (y % (256 / 128)) * 128 ≤ i ∧ i < (y % (256 / 128)) * 128 + 128 ∧ i < 256
        simp only [mixer.outputs, test_mixer_blocked, List.mem_cons, List.mem_nil_iff, or_false,
          construct, clear, basic_storage.clear, basic_storage.construct,
          basic_storage.bit_count] at hi
        omega)).1 _ (by decide)⟩

/-- C3: `insert` is idempotent on both paths.  For every mixer, filter state and element,
the filter after `insert(x); insert(x)` equals the filter after one `insert(x)`, and so does
the filter after any number `n + 1` of calls `insert(x)` in a row. -/
theorem insert_idempotent {α σ : Type} (M : mixer α σ) (f : basic_bloom_filter) (x : α) :
    (insert M (insert M f x).2 x).2._data._storage = (insert M f x).2._data._storage ∧
    ∀ n : Nat, (insert_times M f x (n + 1))._data._storage = (insert M f x).2._data._storage := by
  refine ⟨by rw [insert_insert], fun n => ?_⟩
  rw [insert_times, insert_times_fixed]

/-- C4, against the claim as stated: with `num_hashes = 0` the freshly constructed filter and
the cleared filter answer `count(5)` with 1, not 0. -/
theorem count_empty_zero_hashes :
    (count test_mixer (construct ⟨64, 0⟩) 5).1 = .ok 1 ∧
    (count test_mixer (construct ⟨64, 0⟩) 5).1 ≠ .ok 0 ∧
    (count test_mixer (clear (construct ⟨64, 0⟩)) 5).1 ≠ .ok 0 := by
  decide

/-- C4 as amended: with `num_hashes` at least 1 and a mixer keeping its contract for `x`,
`count(x)` returns 0 on the filter built by `construct(params)` (for `bit_count` with
`bit_count + block_width` inside the range of `std::size_t`) and on every filter just cleared
(whose storage holds at least `bit_count` bits), on both paths. -/
theorem count_empty_filter {α σ : Type} (M : mixer α σ) (p : bloom_filter_params)
    (f : basic_bloom_filter) (x : α)
    (hp : 0 < p.num_hashes) (hpw : p.bit_count + block_width ≤ size_mod)
    (hpm : mixer_contract M p.bit_count p.num_hashes x)
    (hf : 0 < f._params.num_hashes) (hfw : f._data.bit_count ≤ size_mod)
    (hfc : f._data.bit_count ≤ block_width * f._data.block_count)
    (hfm : mixer_contract M f._data.bit_count f._params.num_hashes x) :
    (count M (construct p) x).1 = .ok 0 ∧ (count M (clear f) x).1 = .ok 0 := by
  refine ⟨?_, count_clear M f x hf hfw hfc hfm⟩
  have hw : p.bit_count ≤ size_mod := Nat.le_of_add_right_le hpw
  exact count_clear M { _data := basic_storage.construct p.bit_count, _params := p } x hp hw
    (construct_covers p.bit_count hpw) hpm

/-- Witness of C4 as amended: 100 bits and 3 hashes, element 5, for the constructed filter and
for the filter cleared after `insert(5)`. -/
theorem count_empty_filter_witness :
    (count test_mixer (construct ⟨100, 3⟩) 5).1 = .ok 0 ∧
    (count test_mixer (clear (insert test_mixer (construct ⟨100, 3⟩) 5).2) 5).1 = .ok 0 :=
  count_empty_filter test_mixer ⟨100, 3⟩ (insert test_mixer (construct ⟨100, 3⟩) 5).2 5
    (by decide) (by decide)
    ⟨by
      intro i hi
      show i < 100
      simp only [mixer.outputs, test_mixer, List.mem_cons, List.mem_nil_iff, or_false] at hi
      omega, fun h => absurd rfl h⟩
    (by decide) (by decide) (by decide)
    ⟨by
      intro i hi
      show i < 100
      have hi2 : i ∈ mixer.outputs test_mixer 3 (test_mixer.construct 5 100) := hi
      simp only [mixer.outputs, test_mixer, List.mem_cons, List.mem_nil_iff, or_false] at hi2
      omega, fun h => absurd rfl h⟩

/-- The result of `count` on the unblocked path, for a storage that holds its `bit_count`
bits.  With the probed indices below `bit_count` and a
storage holding at least `bit_count` bits, `count(x)` returns 1 exactly when every one of the
first `num_hashes` indices of the mixer for `(x, bit_count())` is set in the storage, and 0
otherwise; the result is 0 or 1 and the filter is left as it was. -/
theorem count_spec {α σ : Type} (M : mixer α σ) (hM : M.block_bits = 0) (f : basic_bloom_filter)
    (x : α) (hcov : f._data.bit_count ≤ block_width * f._data.block_count)
    (hmix : ∀ i ∈ M.outputs f._params.num_hashes (M.construct x f._data.bit_count),
      i < f._data.bit_count) :
    ((count M f x).1 = .ok 1 ↔
      ∀ i ∈ M.outputs f._params.num_hashes (M.construct x f._data.bit_count),
        f._data.test_bit i = true) ∧
    ((¬ ∀ i ∈ M.outputs f._params.num_hashes (M.construct x f._data.bit_count),
        f._data.test_bit i = true) → (count M f x).1 = .ok 0) ∧
    ((count M f x).1 = .ok 0 ∨ (count M f x).1 = .ok 1) ∧
    (count M f x).2 = f := by
  rw [count_unblocked_eq M hM]
  have hiff := probe_bits_eq_one_iff f._data (probes M f x)
  have hor := probe_bits_zero_or_one f._data (probes M f x)
    (fun i hi => covers_in_range _ hcov i (hmix i hi))
  refine ⟨hiff, fun hn => ?_, hor, rfl⟩
  rcases hor with h0 | h1
  · exact h0
  · exact absurd (hiff.1 h1) hn

/-- An instance of `count_spec`: after `insert(5)` into 100 bits with 3 hashes, `count(5)` is 1 and the
filter is unchanged by the query. -/
theorem count_spec_witness :
    (count test_mixer (insert test_mixer (construct ⟨100, 3⟩) 5).2 5).1 = .ok 1 ∧
    (count test_mixer (insert test_mixer (construct ⟨100, 3⟩) 5).2 5).2
      = (insert test_mixer (construct ⟨100, 3⟩) 5).2 :=
  have h := count_spec test_mixer rfl (insert test_mixer (construct ⟨100, 3⟩) 5).2 5 (by decide)
    (by
      intro i hi
      show i < 100
      have hi2 : i ∈ mixer.outputs test_mixer 3 (test_mixer.construct 5 100) := hi
      simp only [mixer.outputs, test_mixer, List.mem_cons, List.mem_nil_iff, or_false] at hi2
      omega)
  ⟨h.1.2 (by decide), h.2.2.2⟩

/-- The effect of `insert` on the unblocked path, for a storage that holds its `bit_count`
bits: exactly the probed bits are set.  With the probed
indices below `bit_count` and a storage holding at least `bit_count` bits, `insert(x)`
returns normally; afterwards bit `j` is set exactly when it was set before or `j` is one of
the probed indices; block `k` is the old block with the probes of that block or-ed in; and
`block_count`, `bit_count` and `params` are unchanged. -/
theorem insert_spec {α σ : Type} (M : mixer α σ) (hM : M.block_bits = 0) (f : basic_bloom_filter)
    (x : α) (hcov : f._data.bit_count ≤ block_width * f._data.block_count)
    (hmix : ∀ i ∈ M.outputs f._params.num_hashes (M.construct x f._data.bit_count),
      i < f._data.bit_count) :
    (insert M f x).1 = .ok () ∧
    (∀ j : Nat, (insert M f x).2._data.test_bit j = true ↔
      (f._data.test_bit j = true ∨
        j ∈ M.outputs f._params.num_hashes (M.construct x f._data.bit_count))) ∧
    (∀ k : Nat, (insert M f x).2._data.load k = (f._data.load k).map (fun b => b |||
      probe_mask (M.outputs f._params.num_hashes (M.construct x f._data.bit_count)) k)) ∧
    (insert M f x).2._data.block_count = f._data.block_count ∧
    (insert M f x).2._data.bit_count = f._data.bit_count ∧
    (insert M f x).2.params = f.params := by
  have hr : ∀ i ∈ probes M f x, i / block_width < f._data._storage.length :=
    fun i hi => covers_in_range _ hcov i (hmix i hi)
  have hsh := insert_same_shape M f x
  refine ⟨insert_ok_unblocked M hM f x hcov hmix, fun j => ?_, fun k => ?_, hsh.2.2, hsh.2.1,
    hsh.1⟩
  · rw [insert_unblocked_eq M hM]
    simp only
    rw [set_bits_test_bit, in_range_part_eq_self _ _ hr]
    simp only [Bool.or_eq_true, Bool.and_eq_true, decide_eq_true_eq]
    constructor
    · rintro (h | ⟨_, h⟩)
      · exact Or.inl h
      · exact Or.inr h
    · rintro (h | h)
      · exact Or.inl h
      · exact Or.inr ⟨hr j h, h⟩
  · rw [insert_unblocked_eq M hM]
    simp only [basic_storage.load]
    rw [set_bits_blocks, in_range_part_eq_self _ _ hr]
    rfl

/-- An instance of `insert_spec`: `insert(5)` into the empty filter of 100 bits with 3 hashes sets bits 5,
12 and 19 of block 0 and nothing else. -/
theorem insert_spec_witness :
    (insert test_mixer (construct ⟨100, 3⟩) 5).1 = .ok () ∧
    (insert test_mixer (construct ⟨100, 3⟩) 5).2._data._storage = [2 ^ 5 + 2 ^ 12 + 2 ^ 19, 0] ∧
    (insert test_mixer (construct ⟨100, 3⟩) 5).2.params = (construct ⟨100, 3⟩).params :=
  have h := insert_spec test_mixer rfl (construct ⟨100, 3⟩) 5 (by decide)
    (by
      intro i hi
      show i < 100
      have hi2 : i ∈ mixer.outputs test_mixer 3 (test_mixer.construct 5 100) := hi
      simp only [mixer.outputs, test_mixer, List.mem_cons, List.mem_nil_iff, or_false] at hi2
      omega)
  ⟨h.1, by decide, h.2.2.2.2.2⟩

/-- C1, at the failing input: the unblocked mixer answers index 0, which is below
`bit_count = 2 ^ 64 - 1`, yet on the filter built by `construct` for that bit count and one
hash `insert(0)` throws `out_of_range`, the storage is left without any block, and the
following `count(0)` does not return 1: it reads block 0 of a storage of 0 blocks. -/
theorem false_negative_after_construct_wraps :
    test_mixer.block_bits = 0 ∧
    (∀ i ∈ test_mixer.outputs 1 (test_mixer.construct 0 (2 ^ 64 - 1)), i < 2 ^ 64 - 1) ∧
    (insert_all test_mixer (construct ⟨2 ^ 64 - 1, 1⟩) [0]).1 = .error .out_of_range ∧
    (insert_all test_mixer (construct ⟨2 ^ 64 - 1, 1⟩) [0]).2._data._storage = [] ∧
    (count test_mixer (insert_all test_mixer (construct ⟨2 ^ 64 - 1, 1⟩) [0]).2 0).1
      = .error .undefined_behaviour ∧
    (count test_mixer (insert_all test_mixer (construct ⟨2 ^ 64 - 1, 1⟩) [0]).2 0).1 ≠ .ok 1 := by
  decide

/-- C5, at the failing input: on the filter built by `construct` for `bit_count = 2 ^ 64 - 1`
and one hash the probed index 0 is below `bit_count` and its bit is not set, yet `count(0)`
returns neither 0 nor 1: the read of block 0 lies outside the storage of 0 blocks. -/
theorem count_result_after_construct_wraps :
    test_mixer.outputs 1 (test_mixer.construct 0 (construct ⟨2 ^ 64 - 1, 1⟩)._data.bit_count) = [0] ∧
    (0 : Nat) < (construct ⟨2 ^ 64 - 1, 1⟩)._data.bit_count ∧
    (construct ⟨2 ^ 64 - 1, 1⟩)._data.test_bit 0 = false ∧
    (construct ⟨2 ^ 64 - 1, 1⟩)._data.load (0 / block_width) = none ∧
    (count test_mixer (construct ⟨2 ^ 64 - 1, 1⟩) 0).1 = .error .undefined_behaviour ∧
    (count test_mixer (construct ⟨2 ^ 64 - 1, 1⟩) 0).1 ≠ .ok 0 ∧
    (count test_mixer (construct ⟨2 ^ 64 - 1, 1⟩) 0).1 ≠ .ok 1 := by
  decide

/-- C6, at the failing input: on the filter built by `construct` for `bit_count = 2 ^ 64 - 1`
and one hash the probed index 0 is below `bit_count`, yet `insert(0)` throws `out_of_range`
and bit 0 is not set afterwards: the storage has 0 blocks before and after the call. -/
theorem insert_effect_after_construct_wraps :
    test_mixer.outputs 1 (test_mixer.construct 0 (construct ⟨2 ^ 64 - 1, 1⟩)._data.bit_count) = [0] ∧
    (0 : Nat) < (construct ⟨2 ^ 64 - 1, 1⟩)._data.bit_count ∧
    (insert test_mixer (construct ⟨2 ^ 64 - 1, 1⟩) 0).1 = .error .out_of_range ∧
    (insert test_mixer (construct ⟨2 ^ 64 - 1, 1⟩) 0).2._data.test_bit 0 = false ∧
    (insert test_mixer (construct ⟨2 ^ 64 - 1, 1⟩) 0).2._data.block_count = 0 := by
  decide

/-- C7, at the failing input: the filter built by `construct` for `bit_count = 2 ^ 64 - 1`
and one hash has no block, so index 0, which is below `bit_count`, has its block index
`0 / block_width` outside the storage and `insert(0)` ends in `set_mask` throwing
`out_of_range`. -/
theorem insert_out_of_range_after_construct :
    (0 : Nat) < (construct ⟨2 ^ 64 - 1, 1⟩)._data.bit_count ∧
    test_mixer.outputs 1 (test_mixer.construct 0 (2 ^ 64 - 1)) = [0] ∧
    ¬ (0 / block_width < (construct ⟨2 ^ 64 - 1, 1⟩)._data.block_count) ∧
    (insert test_mixer (construct ⟨2 ^ 64 - 1, 1⟩) 0).1 = .error .out_of_range := by
  decide

/-- C8, at the failing input: `construct(2 ^ 64 - 1)` yields a storage of 0 blocks, while
`ceil((2 ^ 64 - 1) / block_width)` is `2 ^ 58`; the sum `bit_count + 63` wraps around in
`std::size_t`. -/
theorem construct_block_count_wraps :
    (basic_storage.construct (2 ^ 64 - 1)).block_count = 0 ∧
    (basic_storage.construct (2 ^ 64 - 1)).bit_count = 2 ^ 64 - 1 ∧
    2 ^ 64 - 1 < size_mod ∧
    (2 ^ 64 - 1 + block_width - 1) / block_width = 2 ^ 58 ∧
    ¬ (2 ^ 64 - 1 ≤ block_width * (basic_storage.construct (2 ^ 64 - 1)).block_count) := by
  decide

/-- C9: `set_mask(block_index, mask)`.  Below `block_count` the call returns normally, the
block at `block_index` becomes its old value or-ed with `mask` and every other block is as
before; at or above `block_count` the call throws `out_of_range` and the storage is as
before; `block_count` and `bit_count` never change, and the call throws exactly when
`block_index` is at least `block_count`. -/
theorem set_mask_spec (s : basic_storage) (block_idx mask : Nat) :
    (block_idx < s.block_count →
      (s.set_mask block_idx mask).1 = .ok () ∧
      (s.set_mask block_idx mask).2.load block_idx
        = (s.load block_idx).map (fun b => b ||| mask) ∧
      (∃ b, s.load block_idx = some b) ∧
      ∀ k : Nat, k ≠ block_idx → (s.set_mask block_idx mask).2.load k = s.load k) ∧
    (s.block_count ≤ block_idx → s.set_mask block_idx mask = (.error .out_of_range, s)) ∧
    (s.set_mask block_idx mask).2.block_count = s.block_count ∧
    (s.set_mask block_idx mask).2.bit_count = s.bit_count ∧
    ((s.set_mask block_idx mask).1 ≠ .ok () ↔ s.block_count ≤ block_idx) := by
  refine ⟨fun h => ?_, fun h => basic_storage.set_mask_err s _ _ h,
    basic_storage.set_mask_length s _ _, basic_storage.set_mask_bit_count s _ _, ?_⟩
  · have h2 : block_idx < s._storage.length := h
    rw [basic_storage.set_mask_ok s _ _ h2]
    refine ⟨rfl, ?_, ⟨_, List.getElem?_eq_getElem h2⟩, fun k hk => ?_⟩
    · simp [basic_storage.load, List.getElem?_eq_getElem h2, h2]
    · simp [basic_storage.load, List.getElem?_set, Ne.symm hk]
  · by_cases h : block_idx < s._storage.length
    · rw [basic_storage.set_mask_ok s _ _ h]
      simp [basic_storage.block_count, h]
    · rw [basic_storage.set_mask_err s _ _ (Nat.le_of_not_lt h)]
      simp [basic_storage.block_count, Nat.le_of_not_lt h]

/-- C10: `clear()` sets every block to 0 and keeps `block_count`, `bit_count` and `params`;
`block_count` is also kept by `set_mask`, by the storage's own `clear` and by `insert` on
either path. -/
theorem clear_spec {α σ : Type} (M : mixer α σ) (f : basic_bloom_filter) (s : basic_storage)
    (x : α) (block_idx mask : Nat) :
    (∀ k : Nat, k < f._data.block_count → (clear f)._data.load k = some 0) ∧
    (clear f)._data.block_count = f._data.block_count ∧
    (clear f)._data.bit_count = f._data.bit_count ∧
    (clear f).params = f.params ∧
    (s.set_mask block_idx mask).2.block_count = s.block_count ∧
    s.clear.block_count = s.block_count ∧
    (insert M f x).2._data.block_count = f._data.block_count := by
  refine ⟨fun k hk => ?_, ?_, rfl, rfl, basic_storage.set_mask_length s _ _, ?_,
    (insert_same_shape M f x).2.2⟩
  · have hk2 : k < f._data._storage.length := hk
    simp [clear, basic_storage.clear, basic_storage.load, List.getElem?_replicate, hk2]
  · simp [clear, basic_storage.clear, basic_storage.block_count]
  · simp [basic_storage.clear, basic_storage.block_count]

/-- C11: the adopting constructor.  `construct(params, storage)` throws `invalid_argument`
exactly when `params.bit_count > storage.bit_count()` and throws nothing else; when it
returns, `data()` is the supplied storage, blocks and bit count as they were, and `params()`
is the supplied value. -/
theorem construct_with_storage_spec (p : bloom_filter_params) (s : basic_storage) :
    (construct_with_storage p s = .error .invalid_argument ↔ s.bit_count < p.bit_count) ∧
    (∀ e, construct_with_storage p s = .error e → e = .invalid_argument) ∧
    (∀ f, construct_with_storage p s = .ok f → f.data = s ∧ f.params = p) ∧
    (p.bit_count ≤ s.bit_count → construct_with_storage p s = .ok { _data := s, _params := p }) := by
  by_cases h : p.bit_count ≤ s._bit_count
  · have hv : construct_with_storage p s = .ok { _data := s, _params := p } := by
      simp [construct_with_storage, LEEK_ASSERT, basic_storage.bit_count, h]
    rw [hv]
    refine ⟨?_, ?_, ?_, fun _ => rfl⟩
    · simp [basic_storage.bit_count, Nat.not_lt.2 h]
    · intro e he
      cases he
    · intro f hf
      cases hf
      exact ⟨rfl, rfl⟩
  · have hv : construct_with_storage p s = .error .invalid_argument := by
      simp [construct_with_storage, LEEK_ASSERT, basic_storage.bit_count, h]
    rw [hv]
    refine ⟨?_, ?_, ?_, fun h2 => absurd h2 h⟩
    · simp [basic_storage.bit_count, Nat.lt_of_not_le h]
    · intro e he
      cases he
      rfl
    · intro f hf
      cases hf

/-- C19: zero hashes.  For every filter with `num_hashes = 0`, every mixer (both paths),
every storage state and every element, `count(x)` returns 1 and `insert(x)` returns with the
filter, its storage included, as it was. -/
theorem zero_hashes {α σ : Type} (M : mixer α σ) (f : basic_bloom_filter) (x : α)
    (hk : f._params.num_hashes = 0) :
    (count M f x).1 = .ok 1 ∧ insert M f x = (.ok (), f) := by
  constructor
  · simp only [count, count_impl_unblocked, count_impl_blocked, hk, count_loop,
      count_loop_blocked, ite_self]
  · simp only [basic_bloom_filter.insert, insert_impl_unblocked, insert_impl_blocked, hk,
      insert_loop, insert_accumulate, insert_flush_zeros, ite_self]

/-- Witness of C19: with zero hashes, on the unblocked and on the blocked path, the empty
filter answers `count(5)` with 1, and so does the filter of 256 bits after `insert(5)`. -/
theorem zero_hashes_witness :
    ((count test_mixer (construct ⟨100, 0⟩) 5).1 = .ok 1 ∧
      insert test_mixer (construct ⟨100, 0⟩) 5 = (.ok (), construct ⟨100, 0⟩)) ∧
    ((count test_mixer_blocked (construct ⟨256, 0⟩) 5).1 = .ok 1 ∧
      insert test_mixer_blocked (construct ⟨256, 0⟩) 5 = (.ok (), construct ⟨256, 0⟩)) :=
  ⟨zero_hashes test_mixer (construct ⟨100, 0⟩) 5 rfl,
    zero_hashes test_mixer_blocked (construct ⟨256, 0⟩) 5 rfl⟩

/-- Index safety of the blocked path, for a storage that holds its `bit_count` bits.  With `block_bits` a positive multiple of the
block width, the region start a multiple of the block width, every probe inside the region
and below `bit_count`, and a storage holding at least `bit_count` bits: every index into the
local arrays is below `block_bits / block_width`, every storage block index
`base_offset / block_width + idx` touched is below `block_count`, blocked `insert` returns
normally and blocked `count` returns 0 or 1. -/
theorem blocked_index_safety {α σ : Type} (M : mixer α σ) (hB : 0 < M.block_bits)
    (hW : block_width ∣ M.block_bits) (f : basic_bloom_filter) (x : α)
    (hsz : f._data.bit_count ≤ size_mod)
    (hcov : f._data.bit_count ≤ block_width * f._data.block_count)
    (hbase : block_width ∣ M.base_offset (M.construct x f._data.bit_count))
    (hmix : ∀ i ∈ M.outputs f._params.num_hashes (M.construct x f._data.bit_count),
      M.base_offset (M.construct x f._data.bit_count) ≤ i ∧
      i < M.base_offset (M.construct x f._data.bit_count) + M.block_bits ∧
      i < f._data.bit_count) :
    (∀ i ∈ M.outputs f._params.num_hashes (M.construct x f._data.bit_count),
      size_sub i (M.base_offset (M.construct x f._data.bit_count)) / block_width
        < M.block_bits / block_width ∧
      M.base_offset (M.construct x f._data.bit_count) / block_width
        + size_sub i (M.base_offset (M.construct x f._data.bit_count)) / block_width
        < f._data.block_count) ∧
    (insert M f x).1 = .ok () ∧
    ((count M f x).1 = .ok 0 ∨ (count M f x).1 = .ok 1) := by
  have hB0 : M.block_bits ≠ 0 := Nat.pos_iff_ne_zero.1 hB
  have hc : blocked_contract M f x := ⟨hW, hbase, hmix⟩
  have hr : ∀ i ∈ probes M f x, i / block_width < f._data._storage.length :=
    fun i hi => covers_in_range _ hcov i (hmix i hi).2.2
  refine ⟨fun i hi => ?_, insert_ok_blocked M hB0 f x hsz hc hcov, ?_⟩
  · obtain ⟨h1, _, hs, hlt⟩ := contract_inner M f x hsz hc i hi
    obtain ⟨hdiv, _⟩ := region_div_mod _ i hbase h1
    rw [hs, ← hdiv]
    exact ⟨hlt, hr i hi⟩
  · rw [count_blocked_eq M hB0 f x hsz hc]
    exact probe_bits_zero_or_one _ _ hr

/-- An instance of `blocked_index_safety`: regions of 128 bits, a filter of 256 bits and 3 hashes, element 5. -/
theorem blocked_index_safety_witness :
    (insert test_mixer_blocked (construct ⟨256, 3⟩) 5).1 = .ok () ∧
    ((count test_mixer_blocked (construct ⟨256, 3⟩) 5).1 = .ok 0 ∨
      (count test_mixer_blocked (construct ⟨256, 3⟩) 5).1 = .ok 1) :=
  (blocked_index_safety test_mixer_blocked (by decide) (by decide) (construct ⟨256, 3⟩) 5
    (by decide) (by decide) (by decide) (by decide)).2

/-- C12: `bloom_filter_params::create_ideal(desired_fpr, expected_elements)` fails with
`invalid_argument` exactly when `desired_fpr` is not strictly between 0 and 1 (a NaN and the
infinities included) or `expected_elements` is 0; for every other input it returns
parameters, whatever the platform rounds and whatever its conversion to `std::size_t` yields
for a quotient out of range. -/
theorem create_ideal_fails_iff {K : Type} [LinearOrderedField K] [FloorRing K]
    (A : double_arith K) (p : double K) (n : Nat) :
    (bloom_filter_params.create_ideal_fp A p n = .error .invalid_argument ↔
      ((¬ ∃ v, p = .finite v ∧ 0 < v ∧ v < 1) ∨ n = 0)) ∧
    (¬ ((¬ ∃ v, p = .finite v ∧ 0 < v ∧ v < 1) ∨ n = 0) →
      ∃ params, bloom_filter_params.create_ideal_fp A p n = .ok params) := by
  constructor
  · constructor
    · intro h
      by_contra hc
      rw [not_or, not_not] at hc
      rw [create_ideal_fp_value A p n hc.1 hc.2] at h
      cases h
    · exact create_ideal_fp_invalid A p n
  · intro hc
    rw [not_or, not_not] at hc
    exact ⟨_, create_ideal_fp_value A p n hc.1 hc.2⟩

/-- The parameters with exact arithmetic: for every valid input (`0 < p < 1`, `n > 0`) whose
quotient is below `2 ^ 64`, `create_ideal(p, n)` returns `bit_count m = floor(-n * ln p / (ln 2)^2)`, the
quotient truncated, and `num_hashes k = round(m / n * ln 2)`, over the reals. -/
theorem create_ideal_formula (p : ℝ) (n : Nat) (hp0 : 0 < p) (hp1 : p < 1) (hn : n ≠ 0)
    (hx : -(n : ℝ) * Real.log p / (Real.log 2) ^ 2 < (size_mod : ℝ)) :
    ∃ params, bloom_filter_params.create_ideal Real.log p n = .ok params ∧
      params.bit_count = ⌊-(n : ℝ) * Real.log p / (Real.log 2) ^ 2⌋₊ ∧
      (params.num_hashes : ℤ) = round ((params.bit_count : ℝ) / (n : ℝ) * Real.log 2) := by
  refine ⟨_, create_ideal_value p n hp0 hp1 hn hx, rfl, ?_⟩
  have hy := ideal_hashes_nonneg ⌊ideal_bits_of Real.log p n⌋₊ n
  simp only
  rw [round_eq, Int.natCast_floor_eq_floor (by linarith)]
  unfold ideal_hashes_of
  congr 2
  ring

/-- An instance of `create_ideal_formula`: `desired_fpr = 1/2` and one element. -/
theorem create_ideal_formula_witness :
    ∃ params, bloom_filter_params.create_ideal Real.log (1 / 2) 1 = .ok params ∧
      params.bit_count = ⌊-((1 : Nat) : ℝ) * Real.log (1 / 2) / (Real.log 2) ^ 2⌋₊ ∧
      (params.num_hashes : ℤ) = round ((params.bit_count : ℝ) / ((1 : Nat) : ℝ) * Real.log 2) :=
  create_ideal_formula (1 / 2) 1 (by norm_num) (by norm_num) (by norm_num)
    (by
      have he : -((1 : Nat) : ℝ) * Real.log (1 / 2) / (Real.log 2) ^ 2 = 1 / Real.log 2 :=
        ideal_bits_half
      rw [he, size_mod_cast]
      linarith [inv_log_two_bounds.2])

/-- C14, at the failing input: with regions of `2 ^ 63` bits, `desired_fpr = 1/4` and
`2 ^ 62` elements, the parameters have a bit count `m0` between `2 ^ 63` and `2 ^ 64`; the
next multiple of the region width is `2 ^ 64`, the sum wraps around in `std::size_t`, and
the filter is built with bit count 0, below `m0`. -/
theorem create_ideal_round_up_wraps :
    ∃ p0 f, bloom_filter_params.create_ideal Real.log (1 / 4) (2 ^ 62) = .ok p0 ∧
      basic_bloom_filter.create_ideal test_mixer_wide Real.log (1 / 4) (2 ^ 62) = .ok f ∧
      0 < test_mixer_wide.block_bits ∧ f.params.bit_count = 0 ∧
      ¬ p0.bit_count ≤ f.params.bit_count := by
  obtain ⟨m, k, h1, h2, hv⟩ := create_ideal_quarter_wide
  have hmod : m % 2 ^ 63 ≠ 0 := by omega
  have hw : size_add m (2 ^ 63 - m % 2 ^ 63) = 0 := by
    simp only [size_add, size_mod, size_bits]
    omega
  refine ⟨{ bit_count := m, num_hashes := k }, construct { bit_count := 0, num_hashes := k },
    hv, ?_, by decide, rfl, ?_⟩
  · have hc : test_mixer_wide.block_bits > 0 ∧ m % test_mixer_wide.block_bits ≠ 0 :=
      ⟨by decide, hmod⟩
    have hw2 : size_add m (test_mixer_wide.block_bits - m % test_mixer_wide.block_bits) = 0 := hw
    simp only [basic_bloom_filter.create_ideal, hv]
    rw [if_pos hc, hw2]
  · show ¬ m ≤ 0
    omega

/-- The rounding of `basic_bloom_filter::create_ideal` where the sum does not wrap around:
when `bloom_filter_params::create_ideal` returns parameters with bit count `m0` and the next
multiple of `block_bits` from `m0` on is below `2 ^ 64`, the filter's `create_ideal` returns a filter with the same hash count whose bit count, for
`block_bits = B > 0`, is a multiple of `B`, at least `m0`, below `m0 + B` and equal to `m0`
when `m0` is a multiple already; for `block_bits = 0` it is `m0`. -/
theorem create_ideal_round_up {α σ K : Type} [LinearOrderedField K] [FloorRing K]
    (M : mixer α σ) (log : K → K) (p : K) (n : Nat) (p0 : bloom_filter_params)
    (h0 : bloom_filter_params.create_ideal log p n = .ok p0)
    (hfit : p0.bit_count % M.block_bits ≠ 0 →
      p0.bit_count + (M.block_bits - p0.bit_count % M.block_bits) < size_mod) :
    ∃ f, basic_bloom_filter.create_ideal M log p n = .ok f ∧
      f.params.num_hashes = p0.num_hashes ∧
      f.data.bit_count = f.params.bit_count ∧
      (M.block_bits = 0 → f.params.bit_count = p0.bit_count) ∧
      (0 < M.block_bits →
        M.block_bits ∣ f.params.bit_count ∧ p0.bit_count ≤ f.params.bit_count ∧
        f.params.bit_count < p0.bit_count + M.block_bits ∧
        (M.block_bits ∣ p0.bit_count → f.params.bit_count = p0.bit_count)) := by
  by_cases hc : M.block_bits > 0 ∧ p0.bit_count % M.block_bits ≠ 0
  · obtain ⟨hd, hle, hge, hlt⟩ := round_up_dvd p0.bit_count M.block_bits hc.1
    have hadd : size_add p0.bit_count (M.block_bits - p0.bit_count % M.block_bits)
        = p0.bit_count + (M.block_bits - p0.bit_count % M.block_bits) := by
      unfold size_add
      exact Nat.mod_eq_of_lt (hfit hc.2)
    refine ⟨construct { p0 with bit_count := p0.bit_count
      + (M.block_bits - p0.bit_count % M.block_bits) }, ?_, rfl, rfl, ?_, ?_⟩
    · simp only [basic_bloom_filter.create_ideal, h0]
      rw [if_pos hc, hadd]
    · intro hz
      exact absurd hc.1 (by omega)
    · intro _
      refine ⟨hd, hge, hlt hc.2, fun hdv => absurd (Nat.mod_eq_zero_of_dvd hdv) hc.2⟩
  · refine ⟨construct p0, ?_, rfl, rfl, fun _ => rfl, fun hB => ?_⟩
    · simp only [basic_bloom_filter.create_ideal, h0]
      rw [if_neg hc]
    · have hz : p0.bit_count % M.block_bits = 0 := by
        by_contra hne
        exact hc ⟨hB, hne⟩
      exact ⟨Nat.dvd_of_mod_eq_zero hz, le_refl _, by
        show p0.bit_count < p0.bit_count + M.block_bits
        omega, fun _ => rfl⟩

/-- An instance of `create_ideal_round_up`: `desired_fpr = 1/2`, one element and regions of 128 bits give
the parameters bit count 1 and the filter bit count 128. -/
theorem create_ideal_round_up_witness :
    ∃ f, basic_bloom_filter.create_ideal test_mixer_blocked Real.log (1 / 2) 1 = .ok f ∧
      f.params.bit_count = 128 := by
  obtain ⟨f, hf, _, _, _, h⟩ := create_ideal_round_up test_mixer_blocked Real.log (1 / 2) 1
    { bit_count := 1, num_hashes := 1 } create_ideal_half_one (by decide)
  obtain ⟨hd, hge, hlt, _⟩ := h (by decide)
  refine ⟨f, hf, ?_⟩
  have hd2 : 128 ∣ f.params.bit_count := hd
  have hge2 : 1 ≤ f.params.bit_count := hge
  have hlt2 : f.params.bit_count < 1 + 128 := hlt
  omega

/-- C15, against the claim as stated: `desired_fpr = 3/4` and one element are valid, the
quotient `ln(4/3) / (ln 2)^2` is about 0.6, far from 1, and the parameters returned have bit
count 0, in the parameter model and over the arithmetic that rounds nothing. -/
theorem create_ideal_zero_bits :
    (0 : ℝ) < 3 / 4 ∧ (3 / 4 : ℝ) < 1 ∧
    bloom_filter_params.create_ideal Real.log (3 / 4) 1
      = .ok { bit_count := 0, num_hashes := 0 } ∧
    bloom_filter_params.create_ideal_fp (exact_arith Real.log) (.finite (3 / 4)) 1
      = .ok { bit_count := 0, num_hashes := 0 } :=
  ⟨by norm_num, by norm_num, create_ideal_three_quarters_one,
    create_ideal_fp_exact Real.log log_two_pos.ne.symm _ _ _ create_ideal_three_quarters_one⟩

/-- Positive bit counts with exact arithmetic: for every valid input whose quotient is below
`2 ^ 64`, the bit count returned by `create_ideal` is at least 1 exactly when `n * ln(1/p)` is at least `(ln 2)^2`;
below that the bit count is 0. -/
theorem create_ideal_positive_iff (p : ℝ) (n : Nat) (hp0 : 0 < p) (hp1 : p < 1) (hn : n ≠ 0)
    (hx : -(n : ℝ) * Real.log p / (Real.log 2) ^ 2 < (size_mod : ℝ)) :
    ∃ params, bloom_filter_params.create_ideal Real.log p n = .ok params ∧
      (1 ≤ params.bit_count ↔ (Real.log 2) ^ 2 ≤ (n : ℝ) * Real.log (1 / p)) := by
  refine ⟨_, create_ideal_value p n hp0 hp1 hn hx, ?_⟩
  have hpos := ideal_bits_pos p n hp0 hp1 hn
  simp only
  rw [Nat.le_floor_iff hpos.le]
  unfold ideal_bits_of
  rw [le_div_iff₀ (pow_pos log_two_pos 2), one_div, Real.log_inv]
  constructor <;> intro h <;> simpa using h

/-- An instance of `create_ideal_positive_iff`: `desired_fpr = 1/2` and one element. -/
theorem create_ideal_positive_iff_witness :
    ∃ params, bloom_filter_params.create_ideal Real.log (1 / 2) 1 = .ok params ∧
      (1 ≤ params.bit_count ↔ (Real.log 2) ^ 2 ≤ ((1 : Nat) : ℝ) * Real.log (1 / (1 / 2))) :=
  create_ideal_positive_iff (1 / 2) 1 (by norm_num) (by norm_num) (by norm_num)
    (by
      have he : -((1 : Nat) : ℝ) * Real.log (1 / 2) / (Real.log 2) ^ 2 = 1 / Real.log 2 :=
        ideal_bits_half
      rw [he, size_mod_cast]
      linarith [inv_log_two_bounds.2])

/-- C15 as amended: the bit count can be 0.  For every valid input (`0 < desired_fpr < 1`,
`expected_elements > 0`), over whatever arithmetic the platform has, `create_ideal` returns
parameters, and when the quotient `-n * ln p / (ln 2)^2` as the platform computes it in
`double` is the finite value `x` with `-1 < x < 2 ^ 64`, the bit count is at least 1 exactly
when `x` is at least 1. -/
theorem create_ideal_fp_positive_iff {K : Type} [LinearOrderedField K] [FloorRing K]
    (A : double_arith K) (p : double K) (n : Nat) (x : K)
    (hp : ∃ v, p = .finite v ∧ 0 < v ∧ v < 1) (hn : n ≠ 0)
    (hq : A.ideal_bits p n = .finite x) (hx0 : -1 < x) (hx1 : x < (size_mod : K)) :
    ∃ params, bloom_filter_params.create_ideal_fp A p n = .ok params ∧
      (1 ≤ params.bit_count ↔ 1 ≤ x) := by
  refine ⟨_, create_ideal_fp_value A p n hp hn, ?_⟩
  simp only
  rw [hq, to_size_finite A x hx0 hx1]
  exact Nat.floor_pos

/-- Witness of C15 as amended: `desired_fpr = 3/4` and one element over the arithmetic that
rounds nothing, where the quotient is below 1. -/
theorem create_ideal_fp_positive_iff_witness :
    ∃ params, bloom_filter_params.create_ideal_fp (exact_arith Real.log) (.finite (3 / 4)) 1
        = .ok params ∧
      (1 ≤ params.bit_count ↔ 1 ≤ ideal_bits_of Real.log (3 / 4) 1) :=
  create_ideal_fp_positive_iff (exact_arith Real.log) (.finite (3 / 4)) 1
    (ideal_bits_of Real.log (3 / 4) 1) ⟨3 / 4, rfl, by norm_num, by norm_num⟩ (by norm_num)
    (exact_ideal_bits Real.log (3 / 4) 1 (by norm_num) log_two_pos.ne.symm)
    (by
      have := ideal_bits_pos (3 / 4) 1 (by norm_num) (by norm_num) (by norm_num)
      linarith)
    (by
      rw [size_mod_cast]
      linarith [ideal_bits_three_quarters.1])

/-- C16: the concrete scenario.  `bloom_filter_params::create_ideal(0.05, 1000)` returns
parameters, and their `expected_fpr(1000)`, taken over the reals from the returned bit count
and hash count, differs from 0.05 by at most 0.02. -/
theorem scenario_expected_fpr :
    ∃ params, bloom_filter_params.create_ideal Real.log 0.05 1000 = .ok params ∧
      |params.expected_fpr 1000 - (0.05 : ℝ)| ≤ 0.02 := by
  obtain ⟨m, h1, h2, hv⟩ := create_ideal_scenario
  exact ⟨_, hv, expected_fpr_scenario m h1 h2⟩

/-- C21, at the failing input: for `bit_count = 2`, `num_hashes = 2 ^ 32` and `2 ^ 32`
elements the product `num_hashes * elements` is `2 ^ 64`, which is 0 in `std::size_t`; the
code returns `(1 - (1/2)^0)^(2^32) = 0`, while the documented formula with the mathematical
product is positive. -/
theorem expected_fpr_product_wraps :
    (2 ^ 32 : Nat) < size_mod ∧
    bloom_filter_params.expected_fpr { bit_count := 2, num_hashes := 2 ^ 32 } (2 ^ 32) = (0 : ℝ) ∧
    (0 : ℝ) < (1 - (1 - 1 / ((2 : Nat) : ℝ)) ^ (2 ^ 32 * 2 ^ 32)) ^ (2 ^ 32) := by
  refine ⟨by decide, ?_, ?_⟩
  · simp only [bloom_filter_params.expected_fpr, size_mul_wraps, pow_zero, sub_self]
    exact zero_pow (by decide)
  · apply pow_pos
    rw [sub_pos]
    apply pow_lt_one₀ (by norm_num) (by norm_num)
    exact Nat.mul_ne_zero (by decide) (by decide)

/-- C22: blocked insert refines unblocked insert.  With `block_bits = B` a positive multiple
of the block width, the region start a multiple of the block width, every probe inside the
region and below `bit_count`, and a storage holding at least `bit_count` bits, the blocked
`insert_impl` and the unblocked `insert_impl`, run on the same mixer state, return the same
outcome and the same filter, block for block; and every block outside
`[base / W, base / W + B / W)` is as before. -/
theorem blocked_insert_refines {α σ : Type} (M : mixer α σ) (hB : 0 < M.block_bits)
    (hW : block_width ∣ M.block_bits) (f : basic_bloom_filter) (x : α)
    (hsz : f._data.bit_count ≤ size_mod)
    (hcov : f._data.bit_count ≤ block_width * f._data.block_count)
    (hbase : block_width ∣ M.base_offset (M.construct x f._data.bit_count))
    (hmix : ∀ i ∈ M.outputs f._params.num_hashes (M.construct x f._data.bit_count),
      M.base_offset (M.construct x f._data.bit_count) ≤ i ∧
      i < M.base_offset (M.construct x f._data.bit_count) + M.block_bits ∧
      i < f._data.bit_count) :
    insert_impl_blocked M f (M.construct x f._data.bit_count)
      = insert_impl_unblocked M f (M.construct x f._data.bit_count) ∧
    ∀ k : Nat,
      (k < M.base_offset (M.construct x f._data.bit_count) / block_width ∨
        M.base_offset (M.construct x f._data.bit_count) / block_width
          + M.block_bits / block_width ≤ k) →
      (insert_impl_blocked M f (M.construct x f._data.bit_count)).2._data.load k
        = f._data.load k := by
  have hB0 : M.block_bits ≠ 0 := Nat.pos_iff_ne_zero.1 hB
  have hc : blocked_contract M f x := ⟨hW, hbase, hmix⟩
  have href := insert_impl_refines M hB0 f x hsz hc hcov
  refine ⟨href, fun k hk => ?_⟩
  have hr : ∀ i ∈ probes M f x, i / block_width < f._data._storage.length :=
    fun i hi => covers_in_range _ hcov i (hmix i hi).2.2
  rw [href, insert_impl_unblocked_eq]
  simp only [basic_storage.load]
  rw [set_bits_blocks, in_range_part_eq_self _ _ hr, probe_mask_outside M f x hsz hc k hk]
  cases f._data._storage[k]? <;> simp

/-- Witness of C22: regions of 128 bits, a filter of 256 bits and 3 hashes, element 5. -/
theorem blocked_insert_refines_witness :
    insert_impl_blocked test_mixer_blocked (construct ⟨256, 3⟩)
        (test_mixer_blocked.construct 5 256)
      = insert_impl_unblocked test_mixer_blocked (construct ⟨256, 3⟩)
        (test_mixer_blocked.construct 5 256) :=
  (blocked_insert_refines test_mixer_blocked (by decide) (by decide) (construct ⟨256, 3⟩) 5
    (by decide) (by decide) (by decide) (by decide)).1

/-- C23: blocked count refines unblocked count.  With `block_bits = B` a positive multiple of
the block width, the region start a multiple of the block width and every probe inside the
region and below `bit_count`, the blocked `count_impl` and the unblocked `count_impl`, run
on the same mixer state and any storage state, return the same value. -/
theorem blocked_count_refines {α σ : Type} (M : mixer α σ) (hB : 0 < M.block_bits)
    (hW : block_width ∣ M.block_bits) (f : basic_bloom_filter) (x : α)
    (hsz : f._data.bit_count ≤ size_mod)
    (hbase : block_width ∣ M.base_offset (M.construct x f._data.bit_count))
    (hmix : ∀ i ∈ M.outputs f._params.num_hashes (M.construct x f._data.bit_count),
      M.base_offset (M.construct x f._data.bit_count) ≤ i ∧
      i < M.base_offset (M.construct x f._data.bit_count) + M.block_bits ∧
      i < f._data.bit_count) :
    count_impl_blocked M f (M.construct x f._data.bit_count)
      = count_impl_unblocked M f (M.construct x f._data.bit_count) :=
  count_impl_refines M (Nat.pos_iff_ne_zero.1 hB) f x hsz ⟨hW, hbase, hmix⟩

/-- Witness of C23: regions of 128 bits, the filter of 256 bits and 3 hashes after
`insert(5)`, queried for 5 and for 6. -/
theorem blocked_count_refines_witness :
    count_impl_blocked test_mixer_blocked (insert test_mixer_blocked (construct ⟨256, 3⟩) 5).2
        (test_mixer_blocked.construct 6 256)
      = count_impl_unblocked test_mixer_blocked
        (insert test_mixer_blocked (construct ⟨256, 3⟩) 5).2
        (test_mixer_blocked.construct 6 256) :=
  blocked_count_refines test_mixer_blocked (by decide) (by decide)
    (insert test_mixer_blocked (construct ⟨256, 3⟩) 5).2 6
    (by decide) (by decide) (by decide)

/-- C24: `insert` commutes.  For every mixer (both paths), filter state and elements `x` and
`y`, `insert(x); insert(y)` and `insert(y); insert(x)` leave the same storage, block for
block; and for two lists holding the same elements, in any order and with any repetitions,
the calls `insert` for one list and for the other leave the same storage. -/
theorem insert_commutes {α σ : Type} (M : mixer α σ) (f : basic_bloom_filter) (x y : α)
    (xs ys : List α) (h : ∀ z, z ∈ xs ↔ z ∈ ys) :
    (insert M (insert M f x).2 y).2._data._storage
      = (insert M (insert M f y).2 x).2._data._storage ∧
    (insert_each M f xs)._data._storage = (insert_each M f ys)._data._storage ∧
    (∀ f1 f2, insert_all M f xs = (.ok (), f1) → insert_all M f ys = (.ok (), f2) →
      f1._data._storage = f2._data._storage) := by
  refine ⟨by rw [insert_insert_comm], by rw [insert_each_of_same_elements M f xs ys h], ?_⟩
  intro f1 f2 h1 h2
  rw [insert_all_eq_insert_each M f f1 xs h1, insert_all_eq_insert_each M f f2 ys h2,
    insert_each_of_same_elements M f xs ys h]

/-- Witness of C24: on the fresh filter of 100 bits and 3 hashes, the elements 1 and 2 in
either order, and the runs 1, 2, 2 and 2, 1. -/
theorem insert_commutes_witness :
    (insert test_mixer (insert test_mixer (construct ⟨100, 3⟩) 1).2 2).2._data._storage
      = (insert test_mixer (insert test_mixer (construct ⟨100, 3⟩) 2).2 1).2._data._storage ∧
    (insert_each test_mixer (construct ⟨100, 3⟩) [1, 2, 2])._data._storage
      = (insert_each test_mixer (construct ⟨100, 3⟩) [2, 1])._data._storage :=
  have h := insert_commutes test_mixer (construct ⟨100, 3⟩) 1 2 [1, 2, 2] [2, 1]
    (fun z => by
      simp only [List.mem_cons, List.mem_nil_iff, or_false]
      tauto)
  ⟨h.1, h.2.1⟩

/-- C25: `count` is monotone under `insert`.  For every mixer (both paths), filter state and
elements `x` and `y`: if `count(y)` returns 1, it returns 1 after `insert(x)`, and after the
calls `insert` for any list of elements. -/
theorem count_monotone {α σ : Type} (M : mixer α σ) (f : basic_bloom_filter) (x y : α)
    (xs : List α) (h : (count M f y).1 = .ok 1) :
    (count M (insert M f x).2 y).1 = .ok 1 ∧ (count M (insert_each M f xs) y).1 = .ok 1 :=
  ⟨count_insert_mono M f x y h, count_insert_each_mono M f xs y h⟩

/-- Witness of C25: 100 bits and 3 hashes; after `insert(5)` the query for 5 gives 1, and
still does after `insert(9)` and after the inserts of 1 and 2. -/
theorem count_monotone_witness :
    (count test_mixer (insert test_mixer (construct ⟨100, 3⟩) 5).2 5).1 = .ok 1 ∧
    (count test_mixer
      (insert test_mixer (insert test_mixer (construct ⟨100, 3⟩) 5).2 9).2 5).1 = .ok 1 :=
  ⟨by decide,
    (count_monotone test_mixer (insert test_mixer (construct ⟨100, 3⟩) 5).2 9 5 [1, 2]
      (by decide)).1⟩

end leekpp
